import Mathlib

/-!
# Verification of the `instruments` metrics library

A shallow embedding of the core of the `instruments` Go library
(streaming histogram, metric identifiers, counter/reservoir/timer
instruments, and the registry flush cycle), together with theorems
settling the specification claims about it.

Modelling conventions:
* Go `float64` values and arithmetic are modelled exactly over `ℚ`
  (every finite `float64` is rational); the single square root used in
  quantile interpolation is modelled over `ℝ` with `Real.sqrt`.
* Go `int64` is modelled as `ℤ`; where two's-complement wrap-around is
  relevant (the counter accumulator) it is made explicit via
  `int64wrap`.
* Go strings are modelled as `List Char`; the bytes the code searches
  for (`'|'`, `','`) are ASCII, for which byte-wise and character-wise
  search coincide.
* Go panics (out-of-range slice indexing) are modelled by `Option`.
-/

namespace Instruments

/-- Go strings, modelled as character lists. -/
abbrev Str := List Char

/-! ## util.go -/

/-- The lexicographic comparison used by `sort.Strings` (byte-wise
order on UTF-8 strings coincides with the character-wise order). -/
def strLE (a b : Str) : Bool := a ≤ b

/-- `sort.Strings`: sort a tag list lexicographically (`List.mergeSort`
with the lexicographic order on `List Char`). -/
def sortStrings (tags : List Str) : List Str :=
  tags.mergeSort strLE

/-- `strings.Join(tags, ",")`. -/
def joinComma : List Str → Str
  | [] => []
  | [t] => t
  | t :: ts => t ++ ',' :: joinComma ts

/-- `strings.Split(s, ",")`: split at every comma (single-byte separator). -/
def splitComma : Str → List Str
  | [] => [[]]
  | c :: rest =>
    match splitComma rest with
    | [] => [[]]
    | t :: ts => if c = ',' then [] :: t :: ts else (c :: t) :: ts

/-- `strings.LastIndexByte(s, c)`: index of the last occurrence of `c`
in `s`, `-1` if absent. -/
def lastIndexOf (c : Char) : Str → ℤ
  | [] => -1
  | a :: rest =>
    let i := lastIndexOf c rest
    if 0 ≤ i then i + 1 else if a = c then 0 else -1

/-- `MetricID` (util.go): `name` when there are no tags, otherwise
`name + "|" + strings.Join(sortedTags, ",")`. -/
def MetricID (name : Str) (tags : List Str) : Str :=
  if tags.length = 0 then name
  else name ++ '|' :: joinComma (sortStrings tags)

/-- `SplitMetricID` (util.go): split a metric ID back into name and
tags at the last `'|'`, provided it is at an interior position. -/
def SplitMetricID (metricID : Str) : Str × List Str :=
  if metricID = [] then ([], [])
  else
    let pos := lastIndexOf '|' metricID
    if 0 < pos ∧ pos < (metricID.length : ℤ) - 1 then
      (metricID.take pos.toNat, splitComma (metricID.drop (pos.toNat + 1)))
    else (metricID, [])

/-! ## instruments.go: Counter -/

/-- Reduce an integer to the two's-complement `int64` range, as Go's
wrapping `int64` arithmetic does. -/
def int64wrap (z : ℤ) : ℤ := (z + 2 ^ 63) % 2 ^ 64 - 2 ^ 63

/-- `Counter` holds an `int64` accumulator. -/
structure Counter where
  count : ℤ
deriving DecidableEq, Repr

/-- `NewCounter`. -/
def NewCounter : Counter := ⟨0⟩

/-- `Counter.Update`: `atomic.AddInt64(&c.count, v)` (wrapping add). -/
def Counter.Update (c : Counter) (v : ℤ) : Counter :=
  ⟨int64wrap (c.count + v)⟩

/-- `Counter.Snapshot`: `atomic.SwapInt64(&c.count, 0)` — returns the
current value and the reset counter. -/
def Counter.Snapshot (c : Counter) : ℤ × Counter :=
  (c.count, ⟨0⟩)

/-- A finite sequence of `Update` calls, in the order they hit the
atomic accumulator. -/
def Counter.updateList (c : Counter) (vs : List ℤ) : Counter :=
  vs.foldl Counter.Update c

/-! ## instruments.go: Reservoir and Timer -/

/-- `defaultReservoirSize`. -/
def defaultReservoirSize : ℤ := 1028

/-- `Reservoir`: sample slot array plus observation count. -/
structure Reservoir where
  size : ℤ
  values : List ℤ
deriving DecidableEq, Repr

/-- `NewReservoir(size)`: a zeroed slot array of length `size`,
or `defaultReservoirSize` when `size ≤ 0`. -/
def NewReservoir (size : ℤ) : Reservoir :=
  ⟨0, List.replicate (if size ≤ 0 then defaultReservoirSize else size).toNat 0⟩

/-- `Timer` wraps a `Reservoir`. -/
structure Timer where
  r : Reservoir
deriving DecidableEq, Repr

/-- `NewTimer(size)`. -/
def NewTimer (size : ℤ) : Timer := ⟨NewReservoir size⟩

/-- `time.Duration.Seconds()`: nanoseconds to seconds (exact model of
the float division by `1e9`). -/
def durationSeconds (d : ℤ) : ℚ := (d : ℚ) / 1000000000

/-- `Floor` (math.go): `int64(math.Floor(v))`. -/
def Floor (v : ℚ) : ℤ := ⌊v⌋

/-- The value `Timer.Update(d)` passes to `t.r.Update`:
`Floor(d.Seconds() * 1000)`. -/
def Timer.updateValue (d : ℤ) : ℤ := Floor (durationSeconds d * 1000)

/-! ## distribution.go: the streaming histogram -/

/-- A histogram bin: weight and value.  An exact bin has positive
weight; a merged bin stores its weight negated. -/
structure histogramBin where
  w : ℚ
  v : ℚ
deriving DecidableEq, Repr

/-- `histogramBin.Sum`: `math.Abs(b.w) * b.v`. -/
def histogramBin.Sum (b : histogramBin) : ℚ := |b.w| * b.v

/-- The streaming histogram state (`histogram` in distribution.go). -/
structure Histogram where
  bins : List histogramBin
  size : ℕ
  cnt : ℕ
  min : ℚ
  max : ℚ
deriving DecidableEq, Repr

/-- `newHistogram(sz)` (modulo pooling, which only recycles storage):
empty bins, zero count/min/max. -/
def newHistogram (sz : ℕ) : Histogram := ⟨[], sz, 0, 0, 0⟩

/-- `math.Copysign(1, w)` for nonzero-signed use: `-1` for negative
weights, `1` otherwise. -/
def copysign1 (w : ℚ) : ℚ := if w < 0 then -1 else 1

/-- The index of the first bin with value `≥ v`, or the length if
there is none. -/
def searchAux (v : ℚ) : List histogramBin → ℕ
  | [] => 0
  | b :: rest => if v ≤ b.v then 0 else searchAux v rest + 1

/-- `histogram.search`: `sort.Search(len(bins), func(i) { bins[i].v >= v })`.
On value-sorted bins (the maintained invariant, which makes the
predicate monotone as `sort.Search` requires) the binary search
returns the first index whose bin value is `≥ v`. -/
def Histogram.search (h : Histogram) (v : ℚ) : ℕ :=
  searchAux v h.bins

/-- `histogram.insert`: if the bin at the search position has value
exactly `v`, bump its absolute weight by 1 keeping the sign marker;
otherwise splice a fresh exact bin `(w := 1, v)` in at that position. -/
def Histogram.insert (h : Histogram) (v : ℚ) : Histogram :=
  match h.bins[h.search v]? with
  | some b =>
    if b.v = v then
      { h with bins := h.bins.take (h.search v) ++
          ⟨b.w + copysign1 b.w, b.v⟩ :: h.bins.drop (h.search v + 1) }
    else
      { h with bins := h.bins.take (h.search v) ++ ⟨1, v⟩ :: h.bins.drop (h.search v) }
  | none =>
    { h with bins := h.bins.take (h.search v) ++ ⟨1, v⟩ :: h.bins.drop (h.search v) }

/-- `math.MaxFloat64`, the initial best gap in `prune`. -/
def maxFloat64 : ℚ := (2 ^ 53 - 1) * 2 ^ 971

/-- The argmin loop of `histogram.prune`: index of the first adjacent
pair with the strictly smallest value gap. -/
def minGapLoop : List histogramBin → ℕ → ℕ → ℚ → ℕ
  | b1 :: b2 :: rest, i, best, gap =>
    if b2.v - b1.v < gap then minGapLoop (b2 :: rest) (i + 1) i (b2.v - b1.v)
    else minGapLoop (b2 :: rest) (i + 1) best gap
  | _, _, best, _ => best

/-- The prune position: argmin of adjacent gaps starting from
`math.MaxFloat64`. -/
def minGapIdx (bins : List histogramBin) : ℕ := minGapLoop bins 0 0 maxFloat64

/-- `histogram.prune`: if over capacity, merge the closest adjacent
pair into one merged (negative-weight) bin.  `none` models the Go
panic when the indexed bins do not exist. -/
def Histogram.prune (h : Histogram) : Option Histogram :=
  if h.bins.length ≤ h.size then some h
  else
    match h.bins[minGapIdx h.bins]?, h.bins[minGapIdx h.bins + 1]? with
    | some b1, some b2 =>
      some { h with bins := h.bins.take (minGapIdx h.bins) ++
          ⟨-(|b1.w| + |b2.w|), (b1.Sum + b2.Sum) / (|b1.w| + |b2.w|)⟩ ::
          h.bins.drop (minGapIdx h.bins + 2) }
    | _, _ => none

/-- `histogram.Add`: update min/max, insert, bump the count, prune. -/
def Histogram.Add (h : Histogram) (v : ℚ) : Option Histogram :=
  let h1 : Histogram :=
    { h with
      min := if h.cnt = 0 ∨ v < h.min then v else h.min
      max := if h.cnt = 0 ∨ h.max < v then v else h.max }
  let h2 := h1.insert v
  Histogram.prune { h2 with cnt := h2.cnt + 1 }

/-- A whole sequence of `Add` calls. -/
def Histogram.addList (h : Histogram) : List ℚ → Option Histogram
  | [] => some h
  | v :: vs =>
    match h.Add v with
    | some h' => h'.addList vs
    | none => none

/-- `histogram.Count`. -/
def Histogram.Count (h : Histogram) : ℕ := h.cnt

/-- `histogram.Min`. -/
def Histogram.Min (h : Histogram) : ℚ := h.min

/-- `histogram.Max`. -/
def Histogram.Max (h : Histogram) : ℚ := h.max

/-- `histogram.Mean`: `Σ |wᵢ|·vᵢ / cnt`, `0` when empty. -/
def Histogram.Mean (h : Histogram) : ℚ :=
  if h.cnt = 0 then 0
  else (h.bins.map histogramBin.Sum).sum / (h.cnt : ℚ)

/-- `histogram.Variance`: `Σ (mean − vᵢ)²·wᵢ / cnt` (signed weights,
as in the source), `0` when empty. -/
def Histogram.Variance (h : Histogram) : ℚ :=
  if h.cnt = 0 then 0
  else (h.bins.map (fun b => (h.Mean - b.v) * (h.Mean - b.v) * b.w)).sum / (h.cnt : ℚ)

/-- The cumulative-weight scan of `histogram.Quantile`: consume bins
while `delta − |w|/2 − w0 ≥ 0`, returning how many bins were passed
and the residual `delta`. -/
def quantileScan : List histogramBin → ℚ → ℚ → ℕ × ℚ
  | [], delta, _ => (0, delta)
  | b :: rest, delta, w0 =>
    if delta - |b.w| / 2 - w0 < 0 then (0, delta)
    else ((quantileScan rest (delta - (|b.w| / 2 + w0)) (|b.w| / 2)).1 + 1,
      (quantileScan rest (delta - (|b.w| / 2 + w0)) (|b.w| / 2)).2)

/-- The interpolation multiplier `z` of `histogram.resolve`, on the
normalised (absolute) weights `w1`, `w2`: `delta / w1` when the
weights agree, else `(√(b² + 4·a·delta) − b) / a` with
`a = 2(w2 − w1)`, `b = 2·w1`. -/
noncomputable def interpZ (w1 w2 : ℝ) (delta : ℚ) : ℝ :=
  if w1 = w2 then (delta : ℝ) / w1
  else (Real.sqrt ((2 * w1) * (2 * w1) + 4 * (2 * (w2 - w1)) * (delta : ℝ)) - 2 * w1)
      / (2 * (w2 - w1))

/-- `histogram.resolve`: if both bins are exact (positive weight,
unmerged) return the right value; otherwise interpolate between the
two bin values by the multiplier `interpZ` on the normalised
weights. -/
noncomputable def resolve (b1 b2 : histogramBin) (delta : ℚ) : ℝ :=
  if 0 < b1.w ∧ 0 < b2.w then (b2.v : ℝ)
  else (b1.v : ℝ) + ((b2.v : ℝ) - (b1.v : ℝ)) * interpZ |(b1.w : ℝ)| |(b2.w : ℝ)| delta

/-- `histogram.Quantile`: `0` for an empty histogram or `q ∉ [0,1]`,
`min`/`max` at the endpoints, otherwise scan and interpolate.  `none`
models the Go panic on out-of-range bin indexing (unreachable from
well-formed states). -/
noncomputable def Histogram.Quantile (h : Histogram) (q : ℚ) : Option ℝ :=
  if h.cnt = 0 ∨ q < 0 ∨ 1 < q then some 0
  else if q = 0 then some (h.min : ℝ)
  else if q = 1 then some (h.max : ℝ)
  else if (quantileScan h.bins (q * (h.cnt : ℚ)) 0).1 = 0 then
    (h.bins[0]?).map
      (fun b => resolve ⟨0, h.min⟩ b (quantileScan h.bins (q * (h.cnt : ℚ)) 0).2)
  else if (quantileScan h.bins (q * (h.cnt : ℚ)) 0).1 = h.bins.length then
    (h.bins[(quantileScan h.bins (q * (h.cnt : ℚ)) 0).1 - 1]?).map
      (fun b => resolve b ⟨0, h.max⟩ (quantileScan h.bins (q * (h.cnt : ℚ)) 0).2)
  else
    match h.bins[(quantileScan h.bins (q * (h.cnt : ℚ)) 0).1 - 1]?,
        h.bins[(quantileScan h.bins (q * (h.cnt : ℚ)) 0).1]? with
    | some b1, some b2 =>
      some (resolve b1 b2 (quantileScan h.bins (q * (h.cnt : ℚ)) 0).2)
    | _, _ => none

/-- Well-formedness of a histogram state, as established by any
sequence of `Add` calls: bins strictly sorted by value, nonzero
weights, values within `[min, max]`, total absolute weight equal to
the count, and at most `size` bins. -/
def Histogram.WF (h : Histogram) : Prop :=
  h.bins.Pairwise (fun a b => a.v < b.v) ∧
  (∀ b ∈ h.bins, b.w ≠ 0 ∧ h.min ≤ b.v ∧ b.v ≤ h.max) ∧
  (h.bins.map (fun b => |b.w|)).sum = (h.cnt : ℚ) ∧
  h.bins.length ≤ h.size

instance (h : Histogram) : Decidable h.WF := by
  unfold Histogram.WF; infer_instance

/-! ## registry.go: the flush cycle

The registry's flush cycle is modelled by the trace of reporter calls
it makes.  Reporters are identified by their index in the subscription
list.  Only the error-free path is modelled (a reporter error
short-circuits the cycle in the source); instrument snapshot values do
not influence the call structure and are omitted from events. -/

/-- The dynamic kind of a registered instrument, as seen by the type
switch in `Registry.flush`.  `Register` only stores `Discrete` or
`Sample` values; `other` models the switch's silent default. -/
inductive InstrumentKind where
  | discrete
  | sample
  | other
deriving DecidableEq, Repr

/-- One reporter call made during a flush cycle. -/
inductive FlushEvent where
  | Prep (rep : ℕ)
  | Discrete (rep : ℕ) (name : Str) (tags : List Str)
  | Sample (rep : ℕ) (name : Str) (tags : List Str)
  | Flush (rep : ℕ)
deriving DecidableEq, Repr

/-- Whether an event is a per-instrument emission. -/
def FlushEvent.isEmit : FlushEvent → Bool
  | .Discrete _ _ _ => true
  | .Sample _ _ _ => true
  | _ => false

/-- Whether an event is an emission addressed to reporter `i`. -/
def FlushEvent.isEmitTo (i : ℕ) : FlushEvent → Bool
  | .Discrete j _ _ => j = i
  | .Sample j _ _ => j = i
  | _ => false

/-- The registry state relevant to a flush cycle: the instrument map
(as an association list keyed by metric ID), the subscribed reporters
(by count), the name prefix and the global tags. -/
structure Registry where
  instruments : List (Str × InstrumentKind)
  nreporters : ℕ
  pfx : Str
  tags : List Str

/-- `Registry.reset`: swap out the instrument map, returning the
drained map and the emptied registry. -/
def Registry.reset (r : Registry) : List (Str × InstrumentKind) × Registry :=
  (r.instruments, { r with instruments := [] })

/-- The calls `Registry.flush` makes for one drained map entry:
split the ID, prepend the prefix to the name, append the metric tags
to the global tags, then call every reporter in order. -/
def emitFor (nreps : ℕ) (pfx : Str) (gtags : List Str)
    (entry : Str × InstrumentKind) : List FlushEvent :=
  let nt := SplitMetricID entry.1
  let name := pfx ++ nt.1
  let tags := gtags ++ nt.2
  (List.range nreps).flatMap fun i =>
    match entry.2 with
    | .discrete => [.Discrete i name tags]
    | .sample => [.Sample i name tags]
    | .other => []

/-- `Registry.flush` (error-free path): `Prep` every reporter, drain
the instrument map via `reset`, emit every drained instrument to every
reporter, then `Flush` every reporter. -/
def Registry.flush (r : Registry) : List FlushEvent × Registry :=
  let d := r.reset
  ((List.range r.nreporters).map .Prep
      ++ d.1.flatMap (emitFor r.nreporters r.pfx r.tags)
      ++ (List.range r.nreporters).map .Flush,
    d.2)

/-! ## Claim C9: Timer.Update records milliseconds -/

/-- Claim C9, counterexample: `Timer.Update` on a duration of
1.5 ms (1 500 000 ns) records the integer 1, not the value 1.5 ms with
its fractional part — `Floor` truncates to whole milliseconds. -/
theorem timer_ms_cex :
    Timer.updateValue 1500000 = 1 ∧
    ((Timer.updateValue 1500000 : ℚ) ≠ (1500000 : ℚ) / 1000000) := by
  have h1 : Timer.updateValue 1500000 = 1 := by
    unfold Timer.updateValue durationSeconds Floor
    rw [show ((1500000 : ℤ) : ℚ) / 1000000000 * 1000 = 3 / 2 by norm_num]
    rw [show (1 : ℤ) = ⌊(3 : ℚ) / 2⌋ by norm_num [Int.floor_eq_iff]]
  refine ⟨h1, ?_⟩
  rw [h1]
  norm_num

/-- Claim C9, amended: `Timer.Update(Δ)` records `⌊Δ in milliseconds⌋`
— the floor of the duration expressed in milliseconds, an integer, so
sub-millisecond precision is not retained. -/
theorem timer_floor_ms (d : ℤ) :
    ((Timer.updateValue d : ℤ) : ℚ) ≤ (d : ℚ) / 1000000 ∧
    (d : ℚ) / 1000000 < ((Timer.updateValue d : ℤ) : ℚ) + 1 := by
  have hms : durationSeconds d * 1000 = (d : ℚ) / 1000000 := by
    unfold durationSeconds; ring
  unfold Timer.updateValue Floor
  rw [hms]
  exact ⟨Int.floor_le _, Int.lt_floor_add_one _⟩

/-! ## Claim C10: reservoir capacity defaulting -/

/-- Claim C10: `NewReservoir(size)` (and hence `NewTimer(size)`)
allocates the default 1028 sample slots when `size ≤ 0`, and exactly
`size` slots when `size > 0`. -/
theorem reservoir_capacity (s : ℤ) :
    (s ≤ 0 →
      (NewReservoir s).values.length = 1028 ∧ (NewTimer s).r.values.length = 1028) ∧
    (0 < s →
      (NewReservoir s).values.length = s.toNat ∧ (NewTimer s).r.values.length = s.toNat) := by
  have hlen : (NewReservoir s).values.length
      = (if s ≤ 0 then defaultReservoirSize else s).toNat := by
    show (List.replicate _ _).length = _
    rw [List.length_replicate]
  have htimer : (NewTimer s).r = NewReservoir s := rfl
  constructor
  · intro hs
    rw [htimer, hlen, if_pos hs]
    decide
  · intro hs
    rw [htimer, hlen, if_neg (not_le.mpr hs)]
    exact ⟨rfl, rfl⟩

/-- Witness for `reservoir_capacity` at sizes `0` and `5`. -/
theorem reservoir_capacity_witness :
    ((0 : ℤ) ≤ 0 ∧ (NewReservoir 0).values.length = 1028) ∧
    ((0 : ℤ) < 5 ∧ (NewReservoir 5).values.length = (5 : ℤ).toNat) :=
  ⟨⟨by decide, ((reservoir_capacity 0).1 (by decide)).1⟩,
   ⟨by decide, ((reservoir_capacity 5).2 (by decide)).1⟩⟩

/-! ## Claim C8: counter sum and reset -/

/-- Wrapping addition composes: wrapping an already wrapped partial
sum gives the wrap of the exact sum. -/
theorem int64wrap_add (x y : ℤ) : int64wrap (int64wrap x + y) = int64wrap (x + y) := by
  unfold int64wrap
  omega

/-- `updateList` from an arbitrary wrapped start accumulates the
wrapped total. -/
theorem updateList_count (vs : List ℤ) :
    ∀ c : ℤ, (Counter.updateList ⟨int64wrap c⟩ vs).count = int64wrap (c + vs.sum) := by
  induction vs with
  | nil => intro c; simp [Counter.updateList]
  | cons v vs ih =>
    intro c
    have step : Counter.updateList ⟨int64wrap c⟩ (v :: vs)
        = Counter.updateList ⟨int64wrap (c + v)⟩ vs := by
      simp [Counter.updateList, Counter.Update, List.foldl_cons, int64wrap_add]
    rw [step, ih (c + v), List.sum_cons, add_assoc]

/-- Claim C8, counterexample: two updates `2⁶³ − 1` and `1` overflow
the `int64` accumulator, so the snapshot is not the mathematical sum. -/
theorem counter_overflow_cex :
    (Counter.updateList NewCounter [2 ^ 63 - 1, 1]).Snapshot.1
      ≠ ([2 ^ 63 - 1, 1] : List ℤ).sum := by decide

/-- Claim C8, amended: after any interleaving (permutation) of the
updates, the next snapshot returns the sum reduced to `int64`
(equal to the exact sum `Σvᵢ` whenever that fits in `int64`), and the
snapshot immediately after returns 0. -/
theorem counter_snapshot (vs vs' : List ℤ) (hperm : vs.Perm vs') :
    (Counter.updateList NewCounter vs').Snapshot.1 = int64wrap vs.sum ∧
    (-(2 ^ 63) ≤ vs.sum → vs.sum < 2 ^ 63 →
      (Counter.updateList NewCounter vs').Snapshot.1 = vs.sum) ∧
    (Counter.updateList NewCounter vs').Snapshot.2.Snapshot.1 = 0 := by
  have hw : NewCounter = (⟨int64wrap 0⟩ : Counter) := by decide
  have hsum : vs'.sum = vs.sum := hperm.symm.sum_eq
  have hcount : (Counter.updateList NewCounter vs').count = int64wrap vs.sum := by
    rw [hw, updateList_count, zero_add, hsum]
  have hfst : (Counter.updateList NewCounter vs').Snapshot.1
      = (Counter.updateList NewCounter vs').count := rfl
  refine ⟨by rw [hfst, hcount], fun hlo hhi => ?_, rfl⟩
  rw [hfst, hcount]
  unfold int64wrap
  omega

/-- Witness for `counter_snapshot`: updates `20, 25` give snapshot 45,
then 0. -/
theorem counter_snapshot_witness :
    (Counter.updateList NewCounter [20, 25]).Snapshot.1 = ([20, 25] : List ℤ).sum ∧
    (Counter.updateList NewCounter [20, 25]).Snapshot.2.Snapshot.1 = 0 := by
  have h := counter_snapshot [20, 25] [20, 25] (List.Perm.refl _)
  exact ⟨h.2.1 (by decide) (by decide), h.2.2⟩

/-! ## Claim C7: MetricID / SplitMetricID round trip -/

theorem lastIndexOf_of_not_mem {c : Char} : ∀ {s : Str}, c ∉ s → lastIndexOf c s = -1
  | [], _ => rfl
  | a :: rest, h => by
    have ha : a ≠ c := fun hac => h (hac ▸ List.mem_cons_self a rest)
    have hr : c ∉ rest := fun hc => h (List.mem_cons_of_mem a hc)
    unfold lastIndexOf
    rw [lastIndexOf_of_not_mem hr]
    simp [ha]

theorem lastIndexOf_append_cons (c : Char) (J : Str) (hJ : c ∉ J) :
    ∀ xs : Str, lastIndexOf c (xs ++ c :: J) = xs.length := by
  intro xs
  induction xs with
  | nil =>
    show lastIndexOf c (c :: J) = 0
    unfold lastIndexOf
    rw [lastIndexOf_of_not_mem hJ]
    simp
  | cons a xs ih =>
    show lastIndexOf c (a :: (xs ++ c :: J)) = (xs.length : ℤ) + 1
    unfold lastIndexOf
    rw [ih]
    simp

theorem joinComma_mem {c : Char} : ∀ {ts : List Str}, c ∈ joinComma ts →
    c = ',' ∨ ∃ t ∈ ts, c ∈ t
  | [], h => by simp [joinComma] at h
  | [t], h => Or.inr ⟨t, List.mem_singleton_self t, h⟩
  | t :: t' :: ts, h => by
    rw [show joinComma (t :: t' :: ts) = t ++ ',' :: joinComma (t' :: ts) from rfl] at h
    rcases List.mem_append.mp h with h | h
    · exact Or.inr ⟨t, List.mem_cons_self _ _, h⟩
    · rcases List.mem_cons.mp h with h | h
      · exact Or.inl h
      · rcases joinComma_mem h with h | ⟨u, hu, hcu⟩
        · exact Or.inl h
        · exact Or.inr ⟨u, List.mem_cons_of_mem _ hu, hcu⟩

theorem joinComma_ne_nil : ∀ {ts : List Str}, ts ≠ [] → (∀ t ∈ ts, t ≠ []) →
    joinComma ts ≠ []
  | [], h, _ => absurd rfl h
  | [t], _, hne => by
    have := hne t (List.mem_singleton_self t)
    simpa [joinComma] using this
  | t :: t' :: ts, _, _ => by
    rw [show joinComma (t :: t' :: ts) = t ++ ',' :: joinComma (t' :: ts) from rfl]
    simp

theorem splitComma_cons (c : Char) (rest : Str) :
    splitComma (c :: rest) =
      match splitComma rest with
      | [] => [[]]
      | t :: ts => if c = ',' then [] :: t :: ts else (c :: t) :: ts := rfl

theorem splitComma_ne_nil (s : Str) : splitComma s ≠ [] := by
  induction s with
  | nil => simp [splitComma]
  | cons c rest ih =>
    rw [splitComma_cons]
    rcases h : splitComma rest with _ | ⟨u, us⟩
    · simp
    · by_cases hc : c = ',' <;> simp [hc]

theorem splitComma_no_comma : ∀ {t : Str}, ',' ∉ t → splitComma t = [t]
  | [], _ => rfl
  | c :: rest, h => by
    have hc : c ≠ ',' := fun hc => h (hc ▸ List.mem_cons_self c rest)
    have hr : ',' ∉ rest := fun hm => h (List.mem_cons_of_mem c hm)
    rw [splitComma_cons, splitComma_no_comma hr]
    simp [hc]

theorem splitComma_append : ∀ {t : Str}, ',' ∉ t → ∀ rest : Str,
    splitComma (t ++ ',' :: rest) = t :: splitComma rest
  | [], _, rest => by
    show splitComma (',' :: rest) = [] :: splitComma rest
    rw [splitComma_cons]
    rcases h : splitComma rest with _ | ⟨u, us⟩
    · exact absurd h (splitComma_ne_nil rest)
    · simp
  | c :: t, h, rest => by
    have hc : c ≠ ',' := fun hc => h (hc ▸ List.mem_cons_self c t)
    have ht : ',' ∉ t := fun hm => h (List.mem_cons_of_mem c hm)
    show splitComma (c :: (t ++ ',' :: rest)) = (c :: t) :: splitComma rest
    rw [splitComma_cons, splitComma_append ht rest]
    simp [hc]

theorem splitComma_joinComma : ∀ {ts : List Str}, ts ≠ [] → (∀ t ∈ ts, ',' ∉ t) →
    splitComma (joinComma ts) = ts
  | [], h, _ => absurd rfl h
  | [t], _, hc => by
    rw [show joinComma [t] = t from rfl]
    exact splitComma_no_comma (hc t (List.mem_singleton_self t))
  | t :: t' :: ts, _, hc => by
    rw [show joinComma (t :: t' :: ts) = t ++ ',' :: joinComma (t' :: ts) from rfl]
    rw [splitComma_append (hc t (List.mem_cons_self _ _)) _]
    rw [splitComma_joinComma (by simp) (fun u hu => hc u (List.mem_cons_of_mem _ hu))]

theorem sortStrings_perm (tags : List Str) : (sortStrings tags).Perm tags :=
  List.mergeSort_perm tags _

theorem strLE_trans : ∀ a b c : Str, strLE a b → strLE b c → strLE a c := by
  intro a b c hab hbc
  simp only [strLE, decide_eq_true_eq] at hab hbc ⊢
  exact le_trans hab hbc

theorem strLE_total : ∀ a b : Str, strLE a b || strLE b a := by
  intro a b
  simp only [strLE, Bool.or_eq_true, decide_eq_true_eq]
  exact le_total a b

theorem sortStrings_sorted (tags : List Str) : (sortStrings tags).Pairwise (· ≤ ·) := by
  have h := List.sorted_mergeSort strLE_trans strLE_total tags
  exact h.imp (fun hab => by simpa [strLE] using hab)

theorem sortStrings_eq_of_perm {tags tags' : List Str} (h : tags.Perm tags') :
    sortStrings tags = sortStrings tags' :=
  List.eq_of_perm_of_sorted
    ((sortStrings_perm tags).trans (h.trans (sortStrings_perm tags').symm))
    (sortStrings_sorted tags) (sortStrings_sorted tags')

/-- Claim C7, counterexample: a name containing `'|'` does not survive
the round trip — `MetricID "a|b" []` is `"a|b"`, which `SplitMetricID`
splits at the `'|'` into `("a", ["b"])`. -/
theorem metricID_roundtrip_cex :
    SplitMetricID (MetricID ['a', '|', 'b'] []) ≠ ((['a', '|', 'b'] : Str), ([] : List Str)) := by
  decide

/-- Claim C7, amended: for a nonempty name containing no `'|'` and
nonempty tags containing neither `'|'` nor `','`, `MetricID` is
invariant under tag permutation, and `SplitMetricID` recovers the
original name together with the sorted tag list. -/
theorem metricID_roundtrip (name : Str) (tags tags' : List Str)
    (hperm : tags.Perm tags') (hname : name ≠ []) (hpipe : '|' ∉ name)
    (htags : ∀ t ∈ tags, t ≠ [] ∧ '|' ∉ t ∧ ',' ∉ t) :
    MetricID name tags = MetricID name tags' ∧
    SplitMetricID (MetricID name tags) = (name, sortStrings tags) := by
  constructor
  · unfold MetricID
    rw [hperm.length_eq, sortStrings_eq_of_perm hperm]
  · rcases eq_or_ne tags [] with htnil | htnil
    · subst htnil
      have hid : MetricID name [] = name := by simp [MetricID]
      rw [hid]
      unfold SplitMetricID
      rw [if_neg hname, lastIndexOf_of_not_mem hpipe]
      have : ¬((0 : ℤ) < -1 ∧ (-1 : ℤ) < (name.length : ℤ) - 1) := by
        intro h; exact absurd h.1 (by norm_num)
      rw [if_neg this]
      simp [sortStrings]
    · set J := joinComma (sortStrings tags) with hJdef
      have hsortne : sortStrings tags ≠ [] := by
        intro h
        exact htnil (List.eq_nil_of_length_eq_zero
          (by rw [← (sortStrings_perm tags).length_eq, h]; rfl))
      have hsortmem : ∀ t ∈ sortStrings tags, t ≠ [] ∧ '|' ∉ t ∧ ',' ∉ t :=
        fun t ht => htags t ((sortStrings_perm tags).mem_iff.mp ht)
      have hJpipe : '|' ∉ J := by
        intro hmem
        rcases joinComma_mem hmem with h | ⟨t, ht, hct⟩
        · exact absurd h (by decide)
        · exact (hsortmem t ht).2.1 hct
      have hJne : J ≠ [] :=
        joinComma_ne_nil hsortne (fun t ht => (hsortmem t ht).1)
      have hid : MetricID name tags = name ++ '|' :: J := by
        unfold MetricID
        rw [if_neg (fun h => htnil (List.eq_nil_of_length_eq_zero h))]
      rw [hid]
      have hidne : name ++ '|' :: J ≠ [] := by simp
      unfold SplitMetricID
      rw [if_neg hidne, lastIndexOf_append_cons '|' J hJpipe name]
      have hlen : (name ++ '|' :: J).length = name.length + 1 + J.length := by
        simp [List.length_append]; omega
      have hcond : (0 : ℤ) < (name.length : ℤ) ∧
          (name.length : ℤ) < ((name ++ '|' :: J).length : ℤ) - 1 := by
        constructor
        · have : 0 < name.length := List.length_pos.mpr hname
          exact_mod_cast this
        · rw [hlen]
          have : 0 < J.length := List.length_pos.mpr hJne
          push_cast
          omega
      rw [if_pos hcond]
      have htoNat : ((name.length : ℤ)).toNat = name.length := Int.toNat_natCast _
      rw [htoNat]
      have htake : (name ++ '|' :: J).take name.length = name :=
        List.take_left name ('|' :: J)
      have hdrop : (name ++ '|' :: J).drop (name.length + 1) = J := by
        have hassoc : name ++ '|' :: J = (name ++ ['|']) ++ J := by simp
        rw [hassoc, List.drop_left' (by simp)]
      rw [htake, hdrop]
      rw [splitComma_joinComma hsortne (fun t ht => (hsortmem t ht).2.2)]

/-! Index lemmas about the slice splices the histogram code performs. -/

theorem splice_set_length {α : Type _} (l : List α) (pos : ℕ) (x : α)
    (h : pos < l.length) :
    (l.take pos ++ x :: l.drop (pos + 1)).length = l.length := by
  simp only [List.length_append, List.length_take, List.length_cons, List.length_drop]
  omega

theorem splice_ins_length {α : Type _} (l : List α) (pos : ℕ) (x : α)
    (h : pos ≤ l.length) :
    (l.take pos ++ x :: l.drop pos).length = l.length + 1 := by
  simp only [List.length_append, List.length_take, List.length_cons, List.length_drop]
  omega

theorem splice_getElem?_lt {α : Type _} (l : List α) (pos : ℕ) (x : α) (t : List α)
    (i : ℕ) (hi : i < pos) (hpos : pos ≤ l.length) :
    (l.take pos ++ x :: t)[i]? = l[i]? := by
  rw [List.getElem?_append_left (by rw [List.length_take]; omega)]
  exact List.getElem?_take_of_lt hi

theorem splice_getElem?_self {α : Type _} (l : List α) (pos : ℕ) (x : α) (t : List α)
    (hpos : pos ≤ l.length) :
    (l.take pos ++ x :: t)[pos]? = some x := by
  rw [List.getElem?_append_right (by rw [List.length_take]; omega)]
  rw [List.length_take, Nat.min_eq_left hpos, Nat.sub_self]
  exact List.getElem?_cons_zero

theorem splice_set_getElem?_gt {α : Type _} (l : List α) (pos : ℕ) (x : α)
    (i : ℕ) (hi : pos < i) (hpos : pos < l.length) :
    (l.take pos ++ x :: l.drop (pos + 1))[i]? = l[i]? := by
  rw [List.getElem?_append_right (by rw [List.length_take]; omega)]
  rw [List.length_take, Nat.min_eq_left (Nat.le_of_lt hpos)]
  rcases Nat.exists_eq_add_of_lt hi with ⟨k, hk⟩
  subst hk
  rw [show pos + k + 1 - pos = k + 1 from by omega]
  rw [List.getElem?_cons_succ, List.getElem?_drop]
  rw [show pos + 1 + k = pos + k + 1 from by omega]

theorem splice_ins_getElem?_ge {α : Type _} (l : List α) (pos : ℕ) (x : α)
    (i : ℕ) (hi : pos ≤ i) (hpos : pos ≤ l.length) :
    (l.take pos ++ x :: l.drop pos)[i + 1]? = l[i]? := by
  rw [List.getElem?_append_right (by rw [List.length_take]; omega)]
  rw [List.length_take, Nat.min_eq_left hpos]
  rw [show i + 1 - pos = (i - pos) + 1 from by omega]
  rw [List.getElem?_cons_succ, List.getElem?_drop]
  rw [show pos + (i - pos) = i from by omega]

/-- Witness for `metricID_roundtrip` on name `"foo"` and tags
`["b", "a"]` against the permutation `["a", "b"]`. -/
theorem metricID_roundtrip_witness :
    MetricID ("foo".toList) ["b".toList, "a".toList]
        = MetricID ("foo".toList) ["a".toList, "b".toList] ∧
    SplitMetricID (MetricID ("foo".toList) ["b".toList, "a".toList])
        = ("foo".toList, sortStrings ["b".toList, "a".toList]) :=
  metricID_roundtrip ("foo".toList) ["b".toList, "a".toList] ["a".toList, "b".toList]
    (by decide) (by decide) (by decide) (by decide)

/-! ## Claim C3: histogram insertion at an equal-valued bin -/

theorem getElem?_some_lt {α : Type _} {l : List α} {i : ℕ} {a : α}
    (h : l[i]? = some a) : i < l.length := by
  by_contra hc
  rw [List.getElem?_eq_none (Nat.le_of_not_lt hc)] at h
  exact Option.noConfusion h

/-- Bound on the search position. -/
theorem searchAux_le_length (v : ℚ) : ∀ bins : List histogramBin,
    searchAux v bins ≤ bins.length
  | [] => le_refl 0
  | b :: rest => by
    unfold searchAux
    split
    · exact Nat.zero_le _
    · exact Nat.succ_le_succ (searchAux_le_length v rest)

/-- `insert` when the searched bin holds exactly `v`: the weight is
moved one away from zero in place. -/
theorem insert_eq_found (h : Histogram) (v : ℚ) (b : histogramBin)
    (hb : h.bins[h.search v]? = some b) (hv : b.v = v) :
    h.insert v = { h with bins := h.bins.take (h.search v) ++
        ⟨b.w + copysign1 b.w, b.v⟩ :: h.bins.drop (h.search v + 1) } := by
  unfold Histogram.insert
  simp only [hb]
  rw [if_pos hv]

/-- `insert` when no bin holds value `v`: a fresh exact bin is spliced
in at the search position. -/
theorem insert_eq_notfound (h : Histogram) (v : ℚ)
    (hno : ∀ b, h.bins[h.search v]? = some b → b.v ≠ v) :
    h.insert v = { h with bins := h.bins.take (h.search v) ++
        ⟨1, v⟩ :: h.bins.drop (h.search v) } := by
  rcases hb : h.bins[h.search v]? with _ | b
  · unfold Histogram.insert
    simp only [hb]
  · unfold Histogram.insert
    simp only [hb]
    rw [if_neg (hno b hb)]

/-- A concrete reachable histogram (capacity 2, inputs 1, 2, 3) whose
first bin is the merged bin `(w = −2, v = 3/2)`. -/
def mergedHist : Histogram := ⟨[⟨-2, 3/2⟩, ⟨1, 3⟩], 2, 3, 1, 3⟩

/-- Claim C3, counterexample: inserting `v = 3/2` into `mergedHist`
finds the *merged* bin `(−2, 3/2)` at the search position; contrary to
the claim, no new exact bin `(v, 1)` is inserted — the bin count stays
at 2 and the merged bin's weight becomes `−3` (absolute weight bumped,
merged marker kept). -/
theorem insert_merged_cex :
    (newHistogram 2).addList [1, 2, 3] = some mergedHist ∧
    mergedHist.search (3/2) = 0 ∧
    mergedHist.bins[0]? = some ⟨-2, 3/2⟩ ∧
    ¬(0 < (-2 : ℚ)) ∧
    (mergedHist.insert (3/2)).bins = [⟨-3, 3/2⟩, ⟨1, 3⟩] ∧
    (mergedHist.insert (3/2)).bins.length ≠ mergedHist.bins.length + 1 := by
  refine ⟨?_, ?_, ?_, by norm_num, ?_, ?_⟩
  · norm_num [Histogram.addList, Histogram.Add, Histogram.insert, Histogram.search,
      searchAux, Histogram.prune, minGapIdx, minGapLoop, copysign1, histogramBin.Sum,
      maxFloat64, newHistogram, mergedHist]
  · norm_num [Histogram.search, searchAux, mergedHist]
  · norm_num [mergedHist]
  · norm_num [Histogram.insert, Histogram.search, searchAux, copysign1, mergedHist]
  · norm_num [Histogram.insert, Histogram.search, searchAux, copysign1, mergedHist]

/-- Claim C3, amended: when the binary search lands on a bin whose
value equals `v`, that bin's weight is moved one away from zero —
`+1` for an exact bin (staying exact), `−1` for a merged bin (staying
merged) — and no bin is inserted; only when no bin holds value `v` is
a new exact bin `(v, 1)` spliced in at the search position, shifting
the suffix. -/
theorem insert_spec (h : Histogram) (v : ℚ) :
    (∀ b, h.bins[h.search v]? = some b → b.v = v →
      (h.insert v).bins.length = h.bins.length ∧
      (h.insert v).bins[h.search v]? = some ⟨b.w + copysign1 b.w, v⟩ ∧
      (0 < b.w → b.w + copysign1 b.w = b.w + 1) ∧
      (b.w < 0 → b.w + copysign1 b.w = b.w - 1) ∧
      ∀ i, i ≠ h.search v → (h.insert v).bins[i]? = h.bins[i]?) ∧
    ((∀ b, h.bins[h.search v]? = some b → b.v ≠ v) →
      (h.insert v).bins.length = h.bins.length + 1 ∧
      (h.insert v).bins[h.search v]? = some ⟨1, v⟩ ∧
      (∀ i, i < h.search v → (h.insert v).bins[i]? = h.bins[i]?) ∧
      ∀ i, h.search v ≤ i → (h.insert v).bins[i + 1]? = h.bins[i]?) := by
  constructor
  · intro b hb hv
    have hlt : h.search v < h.bins.length := getElem?_some_lt hb
    have heq := insert_eq_found h v b hb hv
    rw [heq]
    refine ⟨splice_set_length _ _ _ hlt, ?_, ?_, ?_, ?_⟩
    · rw [show (⟨b.w + copysign1 b.w, b.v⟩ : histogramBin)
          = ⟨b.w + copysign1 b.w, v⟩ from by rw [hv]]
      exact splice_getElem?_self _ _ _ _ (Nat.le_of_lt hlt)
    · intro hpos; simp [copysign1, not_lt.mpr (le_of_lt hpos)]
    · intro hneg; simp [copysign1, hneg]; ring
    · intro i hi
      rcases Nat.lt_or_ge i (h.search v) with hlt' | hge
      · exact splice_getElem?_lt _ _ _ _ _ hlt' (Nat.le_of_lt hlt)
      · exact splice_set_getElem?_gt _ _ _ _ (lt_of_le_of_ne hge (Ne.symm hi)) hlt
  · intro hno
    have hle : h.search v ≤ h.bins.length := searchAux_le_length v h.bins
    have heq := insert_eq_notfound h v hno
    rw [heq]
    exact ⟨splice_ins_length _ _ _ hle,
      splice_getElem?_self _ _ _ _ hle,
      fun i hi => splice_getElem?_lt _ _ _ _ _ hi hle,
      fun i hi => splice_ins_getElem?_ge _ _ _ _ hi hle⟩

/-- Witness for `insert_spec`: the merged-bin update on `mergedHist`
at `v = 3/2` and the fresh-bin insertion at `v = 5`. -/
theorem insert_spec_witness :
    ((mergedHist.insert (3/2)).bins.length = mergedHist.bins.length ∧
      (mergedHist.insert (3/2)).bins[mergedHist.search (3/2)]?
        = some ⟨-2 + copysign1 (-2), 3/2⟩) ∧
    ((mergedHist.insert 5).bins.length = mergedHist.bins.length + 1 ∧
      (mergedHist.insert 5).bins[mergedHist.search 5]? = some ⟨1, 5⟩) := by
  have h1 := (insert_spec mergedHist (3/2)).1 ⟨-2, 3/2⟩
    (by norm_num [Histogram.search, searchAux, mergedHist]) rfl
  have h2 := (insert_spec mergedHist 5).2 (by
    intro b hsome
    rw [show mergedHist.search 5 = 2 from by
      norm_num [Histogram.search, searchAux, mergedHist]] at hsome
    rw [show mergedHist.bins[2]? = none from rfl] at hsome
    exact Option.noConfusion hsome)
  exact ⟨⟨h1.1, h1.2.1⟩, ⟨h2.1, h2.2.1⟩⟩

/-! ## Claim C4: empty histograms and invalid quantiles -/

/-- `insert` touches only the bins. -/
theorem insert_fields (h : Histogram) (v : ℚ) :
    (h.insert v).cnt = h.cnt ∧ (h.insert v).size = h.size ∧
    (h.insert v).min = h.min ∧ (h.insert v).max = h.max := by
  unfold Histogram.insert
  rcases h.bins[h.search v]? with _ | b
  · exact ⟨rfl, rfl, rfl, rfl⟩
  · dsimp only
    split <;> exact ⟨rfl, rfl, rfl, rfl⟩

/-- `prune` touches only the bins. -/
theorem prune_fields (h : Histogram) {h' : Histogram} (hp : h.prune = some h') :
    h'.cnt = h.cnt ∧ h'.size = h.size ∧ h'.min = h.min ∧ h'.max = h.max := by
  unfold Histogram.prune at hp
  split at hp
  · cases hp; exact ⟨rfl, rfl, rfl, rfl⟩
  · split at hp
    · cases hp; exact ⟨rfl, rfl, rfl, rfl⟩
    · exact Option.noConfusion hp

/-- A successful `Add` increments the count and keeps the capacity. -/
theorem Add_cnt_size (h : Histogram) (v : ℚ) {h' : Histogram}
    (ha : h.Add v = some h') : h'.cnt = h.cnt + 1 ∧ h'.size = h.size := by
  unfold Histogram.Add at ha
  have hp := prune_fields _ ha
  dsimp only at hp
  have hins := insert_fields
    { h with
      min := if h.cnt = 0 ∨ v < h.min then v else h.min
      max := if h.cnt = 0 ∨ h.max < v then v else h.max } v
  dsimp only at hins
  exact ⟨by rw [hp.1, hins.1], by rw [hp.2.1, hins.2.1]⟩

/-- A successful `addList` adds the length of the input to the count
and keeps the capacity. -/
theorem addList_cnt_size (vs : List ℚ) : ∀ (h h' : Histogram),
    h.addList vs = some h' → h'.cnt = h.cnt + vs.length ∧ h'.size = h.size := by
  induction vs with
  | nil =>
    intro h h' hl
    cases hl
    exact ⟨rfl, rfl⟩
  | cons v vs ih =>
    intro h h' hl
    unfold Histogram.addList at hl
    split at hl
    next h1 ha =>
      have h2 := ih h1 h' hl
      have h3 := Add_cnt_size h v ha
      refine ⟨?_, h2.2.trans h3.2⟩
      rw [h2.1, h3.1, List.length_cons]
      omega
    next => exact Option.noConfusion hl

/-- Claim C4: `Quantile` returns 0 on an empty histogram and on
`q ∉ [0,1]` without panicking; `Mean` and `Variance` return 0 whenever
the count is 0, and on any reachable histogram with count 0 (i.e. one
with no observations yet) `Min` and `Max` are 0 as well. -/
theorem empty_aggregations :
    (∀ (h : Histogram) (q : ℚ), h.cnt = 0 →
      h.Mean = 0 ∧ h.Variance = 0 ∧ h.Quantile q = some 0) ∧
    (∀ (h : Histogram) (q : ℚ), q < 0 ∨ 1 < q → h.Quantile q = some 0) ∧
    (∀ (sz : ℕ) (vs : List ℚ) (h : Histogram),
      (newHistogram sz).addList vs = some h → h.cnt = 0 →
      h.Min = 0 ∧ h.Max = 0 ∧ h.Mean = 0 ∧ h.Variance = 0 ∧
        ∀ q : ℚ, h.Quantile q = some 0) := by
  have hmean : ∀ (h : Histogram), h.cnt = 0 → h.Mean = 0 := by
    intro h hc; unfold Histogram.Mean; rw [if_pos hc]
  have hvar : ∀ (h : Histogram), h.cnt = 0 → h.Variance = 0 := by
    intro h hc; unfold Histogram.Variance; rw [if_pos hc]
  have hquant0 : ∀ (h : Histogram) (q : ℚ), h.cnt = 0 → h.Quantile q = some 0 := by
    intro h q hc; unfold Histogram.Quantile; rw [if_pos (Or.inl hc)]
  refine ⟨fun h q hc => ⟨hmean h hc, hvar h hc, hquant0 h q hc⟩, ?_, ?_⟩
  · intro h q hq
    unfold Histogram.Quantile
    rw [if_pos (Or.inr hq)]
  · intro sz vs h hl hc
    have hcnt := (addList_cnt_size vs _ _ hl).1
    rw [hc] at hcnt
    have hvs : vs = [] := by
      rcases vs with _ | ⟨v, vs⟩
      · rfl
      · exfalso
        rw [show (newHistogram sz).cnt = 0 from rfl] at hcnt
        simp at hcnt
    subst hvs
    cases hl
    exact ⟨rfl, rfl, hmean _ hc, hvar _ hc, fun q => hquant0 _ q hc⟩

/-- Witness for `empty_aggregations` on the freshly created histogram
of capacity 3 and on `mergedHist` at the invalid quantile `q = 2`. -/
theorem empty_aggregations_witness :
    ((newHistogram 3).Mean = 0 ∧ (newHistogram 3).Variance = 0 ∧
      (newHistogram 3).Quantile (1/2) = some 0) ∧
    mergedHist.Quantile 2 = some 0 ∧
    ((newHistogram 3).Min = 0 ∧ (newHistogram 3).Max = 0) := by
  refine ⟨empty_aggregations.1 (newHistogram 3) (1/2) rfl,
    empty_aggregations.2.1 mergedHist 2 (Or.inr (by norm_num)), ?_⟩
  have h := empty_aggregations.2.2 3 [] (newHistogram 3) rfl rfl
  exact ⟨h.1, h.2.1⟩

/-! ## Claim C2: histogram invariants under Add -/

/-- Total absolute bin weight. -/
def wsum (bins : List histogramBin) : ℚ := (bins.map (fun b => |b.w|)).sum

theorem wsum_append (l1 l2 : List histogramBin) : wsum (l1 ++ l2) = wsum l1 + wsum l2 := by
  unfold wsum
  rw [List.map_append, List.sum_append]

theorem wsum_cons (b : histogramBin) (l : List histogramBin) :
    wsum (b :: l) = |b.w| + wsum l := by
  unfold wsum
  rw [List.map_cons, List.sum_cons]

/-- Everything strictly before the search position has value `< v`. -/
theorem searchAux_take (v : ℚ) : ∀ bins : List histogramBin,
    ∀ x ∈ bins.take (searchAux v bins), x.v < v
  | [] => by simp
  | b :: rest => by
    unfold searchAux
    split
    next hle => simp
    next hgt =>
      intro x hx
      rw [List.take_succ_cons] at hx
      rcases List.mem_cons.mp hx with hx | hx
      · subst hx; exact lt_of_not_le hgt
      · exact searchAux_take v rest x hx

/-- On value-sorted bins, everything from the search position on has
value `≥ v`. -/
theorem searchAux_drop (v : ℚ) : ∀ bins : List histogramBin,
    bins.Pairwise (fun a b => a.v < b.v) →
    ∀ y ∈ bins.drop (searchAux v bins), v ≤ y.v
  | [] => by simp
  | b :: rest => by
    intro hpair y hy
    unfold searchAux at hy
    split at hy
    next hle =>
      rw [List.drop_zero] at hy
      rcases List.mem_cons.mp hy with hy | hy
      · subst hy; exact hle
      · exact le_of_lt (lt_of_le_of_lt hle ((List.pairwise_cons.mp hpair).1 y hy))
    next hgt =>
      rw [List.drop_succ_cons] at hy
      exact searchAux_drop v rest (List.pairwise_cons.mp hpair).2 y hy

/-- When no bin holds value `v`, everything from the search position
on has value strictly `> v`. -/
theorem searchAux_drop_strict (v : ℚ) (bins : List histogramBin)
    (hpair : bins.Pairwise (fun a b => a.v < b.v))
    (hne : ∀ b, bins[searchAux v bins]? = some b → b.v ≠ v) :
    ∀ y ∈ bins.drop (searchAux v bins), v < y.v := by
  intro y hy
  rcases hb : bins[searchAux v bins]? with _ | b
  · rw [List.drop_eq_nil_of_le (List.getElem?_eq_none_iff.mp hb)] at hy
    exact absurd hy (List.not_mem_nil y)
  · have hlt : searchAux v bins < bins.length := getElem?_some_lt hb
    have hbel : bins[searchAux v bins] = b := by
      rw [List.getElem?_eq_getElem hlt] at hb
      exact Option.some_injective _ hb
    rw [← List.getElem_cons_drop bins _ hlt, hbel] at hy
    have hgt : v < b.v :=
      lt_of_le_of_ne
        (searchAux_drop v bins hpair b
          (by rw [← List.getElem_cons_drop bins _ hlt, hbel]; exact List.mem_cons_self _ _))
        (Ne.symm (hne b hb))
    rcases List.mem_cons.mp hy with hy | hy
    · subst hy; exact hgt
    · have hdp : (bins.drop (searchAux v bins)).Pairwise (fun a b => a.v < b.v) :=
        hpair.sublist (List.drop_sublist _ _)
      rw [← List.getElem_cons_drop bins _ hlt, hbel] at hdp
      exact lt_trans hgt ((List.pairwise_cons.mp hdp).1 y hy)

/-- Weight bump away from zero adds one to the absolute weight. -/
theorem abs_copysign_bump (w : ℚ) (hw : w ≠ 0) :
    |w + copysign1 w| = |w| + 1 ∧ w + copysign1 w ≠ 0 := by
  unfold copysign1
  rcases lt_or_gt_of_ne hw with hneg | hpos
  · rw [if_pos hneg, abs_of_neg hneg, abs_of_neg (by linarith)]
    constructor
    · ring
    · intro hzero; linarith
  · rw [if_neg (not_lt.mpr (le_of_lt hpos)), abs_of_pos hpos, abs_of_pos (by linarith)]
    constructor
    · ring
    · intro hzero; linarith

/-- The weighted average of two bins lies strictly between their
values. -/
theorem merge_value_between (b1 b2 : histogramBin)
    (h1 : b1.w ≠ 0) (h2 : b2.w ≠ 0) (hv : b1.v < b2.v) :
    b1.v < (b1.Sum + b2.Sum) / (|b1.w| + |b2.w|) ∧
    (b1.Sum + b2.Sum) / (|b1.w| + |b2.w|) < b2.v := by
  have hw1 : 0 < |b1.w| := abs_pos.mpr h1
  have hw2 : 0 < |b2.w| := abs_pos.mpr h2
  have hws : 0 < |b1.w| + |b2.w| := by linarith
  unfold histogramBin.Sum
  constructor
  · rw [lt_div_iff hws]
    nlinarith
  · rw [div_lt_iff hws]
    nlinarith

/-- A histogram whose total absolute weight is positive has bins. -/
theorem bins_ne_nil_of_wsum_pos (bins : List histogramBin)
    (h : 0 < wsum bins) : bins ≠ [] := by
  intro hnil
  rw [hnil] at h
  simp [wsum] at h

theorem wsum_nonneg : ∀ bins : List histogramBin, 0 ≤ wsum bins
  | [] => le_refl 0
  | b :: rest => by
    rw [wsum_cons]
    have := wsum_nonneg rest
    have := abs_nonneg b.w
    linarith

/-- Bins are empty when the total absolute weight of nowhere-zero
weights is zero. -/
theorem bins_nil_of_wsum_zero : ∀ bins : List histogramBin,
    (∀ b ∈ bins, b.w ≠ 0) → wsum bins = 0 → bins = []
  | [], _, _ => rfl
  | b :: rest, hne, hz => by
    exfalso
    rw [wsum_cons] at hz
    have h1 : 0 < |b.w| := abs_pos.mpr (hne b (List.mem_cons_self _ _))
    have h2 := wsum_nonneg rest
    linarith

/-- `insert` preserves sortedness, nonzero weights and value bounds,
adds one to the total absolute weight, and grows the bin list by at
most one. -/
theorem insert_preserves (h : Histogram) (v lo hi : ℚ)
    (hpair : h.bins.Pairwise (fun a b => a.v < b.v))
    (hmem : ∀ b ∈ h.bins, b.w ≠ 0 ∧ lo ≤ b.v ∧ b.v ≤ hi)
    (hlov : lo ≤ v) (hhiv : v ≤ hi) :
    (h.insert v).bins.Pairwise (fun a b => a.v < b.v) ∧
    (∀ b ∈ (h.insert v).bins, b.w ≠ 0 ∧ lo ≤ b.v ∧ b.v ≤ hi) ∧
    wsum (h.insert v).bins = wsum h.bins + 1 ∧
    (h.insert v).bins.length ≤ h.bins.length + 1 := by
  by_cases hfound : ∃ b, h.bins[h.search v]? = some b ∧ b.v = v
  · obtain ⟨b, hb, hbv⟩ := hfound
    have hlt : h.search v < h.bins.length := getElem?_some_lt hb
    have hbel : h.bins[h.search v] = b := by
      rw [List.getElem?_eq_getElem hlt] at hb
      exact Option.some_injective _ hb
    have hdec : h.bins = h.bins.take (h.search v) ++ b :: h.bins.drop (h.search v + 1) := by
      conv_lhs => rw [← List.take_append_drop (h.search v) h.bins]
      rw [← List.getElem_cons_drop h.bins _ hlt, hbel]
    have hbmem : b ∈ h.bins := by
      rw [hdec]
      exact List.mem_append_right _ (List.mem_cons_self _ _)
    have hbw := (hmem b hbmem).1
    have hbump := abs_copysign_bump b.w hbw
    have heq := insert_eq_found h v b hb hbv
    rw [heq]
    dsimp only
    rw [hdec] at hpair
    obtain ⟨hpt, hpc, hcross⟩ := List.pairwise_append.mp hpair
    obtain ⟨hbd, hpd⟩ := List.pairwise_cons.mp hpc
    refine ⟨?_, ?_, ?_, ?_⟩
    · refine List.pairwise_append.mpr ⟨hpt, List.pairwise_cons.mpr ⟨?_, hpd⟩, ?_⟩
      · intro y hy
        exact hbd y hy
      · intro x hx y hy
        rcases List.mem_cons.mp hy with hy | hy
        · subst hy
          exact hcross x hx b (List.mem_cons_self _ _)
        · exact hcross x hx y (List.mem_cons_of_mem _ hy)
    · intro x hx
      rcases List.mem_append.mp hx with hx | hx
      · exact hmem x (List.take_subset _ _ hx)
      · rcases List.mem_cons.mp hx with hx | hx
        · subst hx
          exact ⟨hbump.2, (hmem b hbmem).2⟩
        · exact hmem x (List.drop_subset _ _ hx)
    · rw [wsum_append, wsum_cons]
      conv_rhs => rw [hdec, wsum_append, wsum_cons]
      rw [show |(⟨b.w + copysign1 b.w, b.v⟩ : histogramBin).w| = |b.w| + 1 from hbump.1]
      ring
    · rw [splice_set_length _ _ _ hlt]
      exact Nat.le_succ _
  · have hno : ∀ b, h.bins[h.search v]? = some b → b.v ≠ v :=
      fun b hb hbv => hfound ⟨b, hb, hbv⟩
    have hle : h.search v ≤ h.bins.length := searchAux_le_length v h.bins
    have heq := insert_eq_notfound h v hno
    rw [heq]
    dsimp only
    have htk : ∀ x ∈ h.bins.take (h.search v), x.v < v := searchAux_take v h.bins
    have hdr : ∀ y ∈ h.bins.drop (h.search v), v < y.v :=
      searchAux_drop_strict v h.bins hpair hno
    refine ⟨?_, ?_, ?_, ?_⟩
    · refine List.pairwise_append.mpr
        ⟨hpair.sublist (List.take_sublist _ _),
         List.pairwise_cons.mpr ⟨hdr, hpair.sublist (List.drop_sublist _ _)⟩, ?_⟩
      intro x hx y hy
      rcases List.mem_cons.mp hy with hy | hy
      · subst hy
        exact htk x hx
      · exact lt_trans (htk x hx) (hdr y hy)
    · intro x hx
      rcases List.mem_append.mp hx with hx | hx
      · exact hmem x (List.take_subset _ _ hx)
      · rcases List.mem_cons.mp hx with hx | hx
        · subst hx
          exact ⟨one_ne_zero, hlov, hhiv⟩
        · exact hmem x (List.drop_subset _ _ hx)
    · rw [wsum_append, wsum_cons]
      conv_rhs => rw [← List.take_append_drop (h.search v) h.bins, wsum_append]
      rw [show |(⟨1, v⟩ : histogramBin).w| = 1 from by simp]
      ring
    · rw [splice_ins_length _ _ _ hle]

/-- `prune` preserves sortedness, nonzero weights, value bounds and
the total absolute weight, and leaves at most `size` bins when it
starts from at most `size + 1`. -/
theorem prune_preserves (h : Histogram) {h' : Histogram} (hp : h.prune = some h')
    (lo hi : ℚ)
    (hpair : h.bins.Pairwise (fun a b => a.v < b.v))
    (hmem : ∀ b ∈ h.bins, b.w ≠ 0 ∧ lo ≤ b.v ∧ b.v ≤ hi)
    (hlen : h.bins.length ≤ h.size + 1) :
    h'.bins.Pairwise (fun a b => a.v < b.v) ∧
    (∀ b ∈ h'.bins, b.w ≠ 0 ∧ lo ≤ b.v ∧ b.v ≤ hi) ∧
    wsum h'.bins = wsum h.bins ∧
    h'.bins.length ≤ h.size := by
  unfold Histogram.prune at hp
  split at hp
  next hsz => cases hp; exact ⟨hpair, hmem, rfl, hsz⟩
  next hsz =>
    split at hp
    next b1 b2 hb1 hb2 =>
      cases hp
      dsimp only
      have hlt2 : minGapIdx h.bins + 1 < h.bins.length := getElem?_some_lt hb2
      have hlt1 : minGapIdx h.bins < h.bins.length := Nat.lt_of_succ_lt hlt2
      have hbel1 : h.bins[minGapIdx h.bins] = b1 := by
        rw [List.getElem?_eq_getElem hlt1] at hb1
        exact Option.some_injective _ hb1
      have hbel2 : h.bins[minGapIdx h.bins + 1] = b2 := by
        rw [List.getElem?_eq_getElem hlt2] at hb2
        exact Option.some_injective _ hb2
      have hdec : h.bins = h.bins.take (minGapIdx h.bins)
          ++ b1 :: b2 :: h.bins.drop (minGapIdx h.bins + 2) := by
        conv_lhs => rw [← List.take_append_drop (minGapIdx h.bins) h.bins]
        rw [← List.getElem_cons_drop h.bins _ hlt1, hbel1,
          ← List.getElem_cons_drop h.bins _ hlt2, hbel2]
      have hb1mem : b1 ∈ h.bins := by
        rw [hdec]; exact List.mem_append_right _ (List.mem_cons_self _ _)
      have hb2mem : b2 ∈ h.bins := by
        rw [hdec]
        exact List.mem_append_right _ (List.mem_cons_of_mem _ (List.mem_cons_self _ _))
      have hw1 : b1.w ≠ 0 := (hmem b1 hb1mem).1
      have hw2 : b2.w ≠ 0 := (hmem b2 hb2mem).1
      have hwpos : 0 < |b1.w| + |b2.w| := by
        have := abs_pos.mpr hw1
        have := abs_nonneg b2.w
        linarith
      rw [hdec] at hpair
      obtain ⟨hpt, hpc, hcross⟩ := List.pairwise_append.mp hpair
      obtain ⟨hb1d, hpc2⟩ := List.pairwise_cons.mp hpc
      obtain ⟨hb2d, hpd⟩ := List.pairwise_cons.mp hpc2
      have hv12 : b1.v < b2.v := hb1d b2 (List.mem_cons_self _ _)
      have hmv := merge_value_between b1 b2 hw1 hw2 hv12
      refine ⟨?_, ?_, ?_, ?_⟩
      · refine List.pairwise_append.mpr
          ⟨hpt, List.pairwise_cons.mpr ⟨?_, ?_⟩, ?_⟩
        · intro y hy
          exact lt_trans hmv.2 (hb2d y hy)
        · exact hpd
        · intro x hx y hy
          rcases List.mem_cons.mp hy with hy | hy
          · subst hy
            exact lt_trans (hcross x hx b1 (List.mem_cons_self _ _)) hmv.1
          · exact hcross x hx y (List.mem_cons_of_mem _ (List.mem_cons_of_mem _ hy))
      · intro x hx
        rcases List.mem_append.mp hx with hx | hx
        · exact hmem x (by
            rw [hdec]
            exact List.mem_append_left _ (by
              have := List.take_subset (minGapIdx h.bins)
                (h.bins.take (minGapIdx h.bins))
              exact hx))
        · rcases List.mem_cons.mp hx with hx | hx
          · subst hx
            refine ⟨by dsimp only; intro hz; linarith [neg_eq_zero.mp hz], ?_, ?_⟩
            · exact le_of_lt (lt_of_le_of_lt (hmem b1 hb1mem).2.1 hmv.1)
            · exact le_of_lt (lt_of_lt_of_le hmv.2 (hmem b2 hb2mem).2.2)
          · exact hmem x (by
              rw [hdec]
              exact List.mem_append_right _
                (List.mem_cons_of_mem _ (List.mem_cons_of_mem _ hx)))
      · rw [wsum_append, wsum_cons]
        conv_rhs => rw [hdec, wsum_append, wsum_cons, wsum_cons]
        rw [show |(⟨-(|b1.w| + |b2.w|),
            (b1.Sum + b2.Sum) / (|b1.w| + |b2.w|)⟩ : histogramBin).w|
          = |b1.w| + |b2.w| from by
            dsimp only
            rw [abs_neg, abs_of_pos hwpos]]
        ring
      · have hlensplice : (h.bins.take (minGapIdx h.bins) ++
            ⟨-(|b1.w| + |b2.w|), (b1.Sum + b2.Sum) / (|b1.w| + |b2.w|)⟩ ::
            h.bins.drop (minGapIdx h.bins + 2)).length
            = h.bins.length - 1 := by
          simp only [List.length_append, List.length_take, List.length_cons,
            List.length_drop]
          omega
        rw [hlensplice]
        omega
    next =>
      exact Option.noConfusion hp

/-- One successful `Add` preserves well-formedness. -/
theorem Add_WF (h : Histogram) (v : ℚ) {h' : Histogram}
    (hwf : h.WF) (ha : h.Add v = some h') : h'.WF := by
  obtain ⟨hpair, hmem, hsum, hlen⟩ := hwf
  have hsumw : wsum h.bins = (h.cnt : ℚ) := hsum
  unfold Histogram.Add at ha
  set lo := if h.cnt = 0 ∨ v < h.min then v else h.min with hlo
  set hi := if h.cnt = 0 ∨ h.max < v then v else h.max with hhi
  have hlov : lo ≤ v := by
    rw [hlo]
    split
    · exact le_refl v
    next hcond =>
      push_neg at hcond
      exact hcond.2
  have hvhi : v ≤ hi := by
    rw [hhi]
    split
    · exact le_refl v
    next hcond =>
      push_neg at hcond
      exact hcond.2
  have hnil0 : h.cnt = 0 → h.bins = [] := by
    intro hc0
    refine bins_nil_of_wsum_zero h.bins (fun b hb => (hmem b hb).1) ?_
    rw [hsumw, hc0]
    norm_num
  have hmem1 : ∀ b ∈ h.bins, b.w ≠ 0 ∧ lo ≤ b.v ∧ b.v ≤ hi := by
    intro b hb
    have hb0 := hmem b hb
    refine ⟨hb0.1, ?_, ?_⟩
    · rw [hlo]
      split
      next hcond =>
        rcases hcond with hc0 | hvlt
        · exact absurd (hnil0 hc0 ▸ hb) (List.not_mem_nil b)
        · exact le_of_lt (lt_of_lt_of_le hvlt hb0.2.1)
      next => exact hb0.2.1
    · rw [hhi]
      split
      next hcond =>
        rcases hcond with hc0 | hvgt
        · exact absurd (hnil0 hc0 ▸ hb) (List.not_mem_nil b)
        · exact le_of_lt (lt_of_le_of_lt hb0.2.2 hvgt)
      next => exact hb0.2.2
  have hins := insert_preserves { h with min := lo, max := hi } v lo hi hpair hmem1 hlov hvhi
  have hinsf := insert_fields { h with min := lo, max := hi } v
  dsimp only at hinsf
  have hpp := prune_preserves _ ha lo hi (by exact hins.1) (by exact hins.2.1)
    (by
      show (({ h with min := lo, max := hi } : Histogram).insert v).bins.length
        ≤ (({ h with min := lo, max := hi } : Histogram).insert v).size + 1
      rw [hinsf.2.1]
      exact le_trans hins.2.2.2 (Nat.succ_le_succ hlen))
  have hpf := prune_fields _ ha
  dsimp only at hpf
  refine ⟨hpp.1, ?_, ?_, ?_⟩
  · have hmin : h'.min = lo := by rw [hpf.2.2.1, hinsf.2.2.1]
    have hmax : h'.max = hi := by rw [hpf.2.2.2, hinsf.2.2.2]
    rw [hmin, hmax]
    exact hpp.2.1
  · show wsum h'.bins = (h'.cnt : ℚ)
    rw [hpp.2.2.1, hpf.1, hinsf.1]
    show wsum (({ h with min := lo, max := hi } : Histogram).insert v).bins
      = ((h.cnt + 1 : ℕ) : ℚ)
    rw [hins.2.2.1]
    show wsum h.bins + 1 = _
    rw [hsumw]
    push_cast
    ring
  · have h1 := hpp.2.2.2
    dsimp only at h1
    rw [hinsf.2.1] at h1
    have hsz : h'.size = h.size := by rw [hpf.2.1, hinsf.2.1]
    rw [hsz]
    exact h1

/-- Well-formedness of the empty histogram. -/
theorem newHistogram_WF (sz : ℕ) : (newHistogram sz).WF := by
  refine ⟨List.Pairwise.nil, ?_, ?_, ?_⟩
  · intro b hb
    exact absurd hb (List.not_mem_nil b)
  · simp [newHistogram]
  · exact Nat.zero_le _

/-- Any successful sequence of `Add` calls preserves well-formedness. -/
theorem addList_WF (vs : List ℚ) : ∀ (h h' : Histogram),
    h.WF → h.addList vs = some h' → h'.WF := by
  induction vs with
  | nil =>
    intro h h' hwf hl
    cases hl
    exact hwf
  | cons v vs ih =>
    intro h h' hwf hl
    unfold Histogram.addList at hl
    split at hl
    next h1 ha => exact ih h1 h' (Add_WF h v hwf ha) hl
    next => exact Option.noConfusion hl

/-- Claim C2: every successful sequence of `Add` calls on a fresh
histogram of capacity `s` leaves the bins strictly sorted by value,
keeps at most `s` bins once each `Add` (with its prune step)
completes, and keeps the total absolute bin weight equal to the
observation count.  (On a capacity-0 histogram the first `Add` panics
in its prune step — modelled as `none` — so it never completes.) -/
theorem add_invariants (sz : ℕ) (vs : List ℚ) (h : Histogram)
    (hadd : (newHistogram sz).addList vs = some h) :
    h.bins.Pairwise (fun a b => a.v < b.v) ∧
    h.bins.length ≤ sz ∧
    (h.bins.map (fun b => |b.w|)).sum = (h.cnt : ℚ) := by
  have hwf := addList_WF vs _ _ (newHistogram_WF sz) hadd
  have hsz : h.size = sz := (addList_cnt_size vs _ _ hadd).2
  exact ⟨hwf.1, hsz ▸ hwf.2.2.2, hwf.2.2.1⟩

/-- Witness for `add_invariants`: capacity 2, inputs 1, 2, 3. -/
theorem add_invariants_witness :
    mergedHist.bins.Pairwise (fun a b => a.v < b.v) ∧
    mergedHist.bins.length ≤ 2 ∧
    (mergedHist.bins.map (fun b => |b.w|)).sum = (mergedHist.cnt : ℚ) :=
  add_invariants 2 [1, 2, 3] mergedHist (by
    norm_num [Histogram.addList, Histogram.Add, Histogram.insert, Histogram.search,
      searchAux, Histogram.prune, minGapIdx, minGapLoop, copysign1, histogramBin.Sum,
      maxFloat64, newHistogram, mergedHist])

/-! ## Claims C5 and C6: the flush cycle -/

/-- The single event `flush` emits to reporter `i` for one drained
entry (discrete or sample instruments; `other` is never stored by
`Register`). -/
def emitEvt (i : ℕ) (pfx : Str) (gtags : List Str)
    (entry : Str × InstrumentKind) : FlushEvent :=
  match entry.2 with
  | .discrete => .Discrete i (pfx ++ (SplitMetricID entry.1).1)
      (gtags ++ (SplitMetricID entry.1).2)
  | .sample => .Sample i (pfx ++ (SplitMetricID entry.1).1)
      (gtags ++ (SplitMetricID entry.1).2)
  | .other => .Flush i

theorem emitFor_eq_map (nreps : ℕ) (pfx : Str) (gtags : List Str)
    (entry : Str × InstrumentKind) (hk : entry.2 ≠ .other) :
    emitFor nreps pfx gtags entry
      = (List.range nreps).map (fun i => emitEvt i pfx gtags entry) := by
  unfold emitFor emitEvt
  rcases hkind : entry.2 with _ | _ | _
  · exact (List.map_eq_bind _ _).symm
  · exact (List.map_eq_bind _ _).symm
  · exact absurd hkind hk

theorem isEmit_emitEvt (i : ℕ) (pfx : Str) (gtags : List Str)
    (entry : Str × InstrumentKind) (hk : entry.2 ≠ .other) :
    (emitEvt i pfx gtags entry).isEmit = true := by
  unfold emitEvt
  rcases hkind : entry.2 with _ | _ | _
  · rfl
  · rfl
  · exact absurd hkind hk

theorem isEmitTo_emitEvt (i j : ℕ) (pfx : Str) (gtags : List Str)
    (entry : Str × InstrumentKind) (hk : entry.2 ≠ .other) :
    (emitEvt j pfx gtags entry).isEmitTo i = decide (j = i) := by
  unfold emitEvt FlushEvent.isEmitTo
  rcases hkind : entry.2 with _ | _ | _
  · rfl
  · rfl
  · exact absurd hkind hk

theorem filter_isEmitTo_range {i n : ℕ} (hin : i < n) (pfx : Str) (gtags : List Str)
    (entry : Str × InstrumentKind) (hk : entry.2 ≠ .other) :
    ((List.range n).map (fun j => emitEvt j pfx gtags entry)).filter
        (FlushEvent.isEmitTo i)
      = [emitEvt i pfx gtags entry] := by
  induction n with
  | zero => exact absurd hin (Nat.not_lt_zero i)
  | succ n ih =>
    rw [List.range_succ, List.map_append, List.filter_append]
    rcases Nat.lt_or_ge i n with hlt | hge
    · rw [ih hlt]
      have : (emitEvt n pfx gtags entry).isEmitTo i = false := by
        rw [isEmitTo_emitEvt i n pfx gtags entry hk]
        simp
        omega
      simp [this]
    · have hieq : i = n := by omega
      subst hieq
      have hnone : ∀ j < i, (emitEvt j pfx gtags entry).isEmitTo i = false := by
        intro j hj
        rw [isEmitTo_emitEvt i j pfx gtags entry hk]
        simp
        omega
      have hfilter0 : ((List.range i).map (fun j => emitEvt j pfx gtags entry)).filter
          (FlushEvent.isEmitTo i) = [] := by
        rw [List.filter_eq_nil_iff]
        intro e he
        rcases List.mem_map.mp he with ⟨j, hj, hje⟩
        rw [← hje]
        rw [hnone j (List.mem_range.mp hj)]
        simp
      rw [hfilter0]
      have hself : (emitEvt i pfx gtags entry).isEmitTo i = true := by
        rw [isEmitTo_emitEvt i i pfx gtags entry hk]
        simp
      simp [hself]

theorem filter_isEmitTo_emits {i n : ℕ} (hin : i < n) (pfx : Str) (gtags : List Str) :
    ∀ (drained : List (Str × InstrumentKind)),
      (∀ en ∈ drained, en.2 ≠ .other) →
      (drained.flatMap (emitFor n pfx gtags)).filter (FlushEvent.isEmitTo i)
        = drained.map (emitEvt i pfx gtags)
  | [], _ => rfl
  | en :: rest, hk => by
    rw [List.flatMap_cons, List.filter_append, List.map_cons]
    rw [emitFor_eq_map n pfx gtags en (hk en (List.mem_cons_self _ _))]
    rw [filter_isEmitTo_range hin pfx gtags en (hk en (List.mem_cons_self _ _))]
    rw [filter_isEmitTo_emits hin pfx gtags rest
      (fun e he => hk e (List.mem_cons_of_mem _ he))]
    rfl

/-- No `Prep` or `Flush` among the emitted events. -/
theorem emits_are_emits (n : ℕ) (pfx : Str) (gtags : List Str)
    (drained : List (Str × InstrumentKind)) (hk : ∀ en ∈ drained, en.2 ≠ .other) :
    ∀ e ∈ drained.flatMap (emitFor n pfx gtags), e.isEmit = true := by
  intro e he
  rcases List.mem_flatMap.mp he with ⟨en, hen, hee⟩
  rw [emitFor_eq_map n pfx gtags en (hk en hen)] at hee
  rcases List.mem_map.mp hee with ⟨j, _, hje⟩
  rw [← hje]
  exact isEmit_emitEvt j pfx gtags en (hk en hen)

/-- Counting occurrences of an injectively mapped event over the
reporter range. -/
theorem count_map_range_eq_one {n i : ℕ} (hin : i < n)
    (f : ℕ → FlushEvent) (hinj : Function.Injective f) :
    ((List.range n).map f).count (f i) = 1 := by
  rw [List.count_map_of_injective _ f hinj i]
  exact List.count_eq_one_of_mem (List.nodup_range n) (List.mem_range.mpr hin)

/-- Whether an event is a `Prep` call. -/
def FlushEvent.isPrep : FlushEvent → Bool
  | .Prep _ => true
  | _ => false

/-- Whether an event is a `Flush` call. -/
def FlushEvent.isFlushCall : FlushEvent → Bool
  | .Flush _ => true
  | _ => false

theorem isPrep_not_isEmit {e : FlushEvent} (h : e.isPrep = true) : e.isEmit = false := by
  rcases e with _ | _ | _ | _
  · rfl
  · exact Bool.noConfusion h
  · exact Bool.noConfusion h
  · exact Bool.noConfusion h

theorem isEmit_not_isPrep {e : FlushEvent} (h : e.isEmit = true) : e.isPrep = false := by
  rcases e with _ | _ | _ | _
  · exact Bool.noConfusion h
  · rfl
  · rfl
  · exact Bool.noConfusion h

theorem isFlushCall_not_isEmit {e : FlushEvent} (h : e.isFlushCall = true) :
    e.isEmit = false := by
  rcases e with _ | _ | _ | _
  · rfl
  · exact Bool.noConfusion h
  · exact Bool.noConfusion h
  · rfl

/-- In a trace shaped `front ++ back` where no event of `back`
satisfies `p`, any index whose event satisfies `p` lies in `front`. -/
theorem index_lt_of_pred (front back : List FlushEvent) (p : FlushEvent → Bool)
    (hback : ∀ e ∈ back, p e = false) (j : ℕ) (e : FlushEvent)
    (hje : (front ++ back)[j]? = some e) (hpe : p e = true) : j < front.length := by
  by_contra hge
  push_neg at hge
  rw [List.getElem?_append_right hge] at hje
  rw [hback e (List.getElem?_mem hje)] at hpe
  exact Bool.noConfusion hpe

/-- Symmetrically: if no event of `front` satisfies `p`, any index
whose event satisfies `p` lies in `back`. -/
theorem index_ge_of_pred (front back : List FlushEvent) (p : FlushEvent → Bool)
    (hfront : ∀ e ∈ front, p e = false) (j : ℕ) (e : FlushEvent)
    (hje : (front ++ back)[j]? = some e) (hpe : p e = true) : front.length ≤ j := by
  by_contra hlt
  push_neg at hlt
  rw [List.getElem?_append_left hlt] at hje
  rw [hfront e (List.getElem?_mem hje)] at hpe
  exact Bool.noConfusion hpe

/-- The `prep → emit → flush` phase ordering of a trace
`(P ++ E) ++ F` with homogeneous phases. -/
theorem phase_order (P E F : List FlushEvent)
    (hP : ∀ e ∈ P, e.isPrep = true) (hE : ∀ e ∈ E, e.isEmit = true)
    (hF : ∀ e ∈ F, e.isFlushCall = true)
    (j k : ℕ) (ej ek : FlushEvent)
    (hje : ((P ++ E) ++ F)[j]? = some ej) (hke : ((P ++ E) ++ F)[k]? = some ek) :
    (ej.isPrep = true → ek.isEmit = true → j < k) ∧
    (ej.isEmit = true → ek.isFlushCall = true → j < k) := by
  have hassoc : (P ++ E) ++ F = P ++ (E ++ F) := List.append_assoc P E F
  constructor
  · intro hpj hek
    have hj : j < P.length := by
      refine index_lt_of_pred P (E ++ F) FlushEvent.isPrep ?_ j ej (hassoc ▸ hje) hpj
      intro e he
      rcases List.mem_append.mp he with he | he
      · exact isEmit_not_isPrep (hE e he)
      · have := hF e he
        rcases e with _ | _ | _ | _
        · exact Bool.noConfusion this
        · rfl
        · rfl
        · rfl
    have hk2 : P.length ≤ k := by
      refine index_ge_of_pred P (E ++ F) FlushEvent.isEmit ?_ k ek (hassoc ▸ hke) hek
      intro e he
      exact isPrep_not_isEmit (hP e he)
    omega
  · intro hej hfk
    have hj : j < (P ++ E).length := by
      refine index_lt_of_pred (P ++ E) F FlushEvent.isEmit ?_ j ej hje hej
      intro e he
      exact isFlushCall_not_isEmit (hF e he)
    have hk2 : (P ++ E).length ≤ k := by
      refine index_ge_of_pred (P ++ E) F FlushEvent.isFlushCall ?_ k ek hke hfk
      intro e he
      rcases List.mem_append.mp he with he | he
      · have := hP e he
        rcases e with _ | _ | _ | _
        · rfl
        · exact Bool.noConfusion this
        · exact Bool.noConfusion this
        · exact Bool.noConfusion this
      · have := hE e he
        rcases e with _ | _ | _ | _
        · exact Bool.noConfusion this
        · rfl
        · rfl
        · exact Bool.noConfusion this
    omega

/-- Claim C5: in an error-free flush cycle, every reporter gets `Prep`
exactly once, before any `Discrete`/`Sample` emission; every reporter
gets `Flush` exactly once, after all emissions; every instrument in
the registry at the drain swap is delivered to every reporter exactly
once (in drain order); and the swap leaves the registry empty. -/
theorem flush_cycle_contract (r : Registry)
    (hk : ∀ en ∈ r.instruments, en.2 ≠ .other) :
    (∀ i, i < r.nreporters →
      (r.flush).1.count (.Prep i) = 1 ∧ (r.flush).1.count (.Flush i) = 1 ∧
      (r.flush).1.filter (FlushEvent.isEmitTo i)
        = r.instruments.map (emitEvt i r.pfx r.tags)) ∧
    (∀ (j k : ℕ) (ej ek : FlushEvent),
      (r.flush).1[j]? = some ej → (r.flush).1[k]? = some ek →
      (ej.isPrep = true → ek.isEmit = true → j < k) ∧
      (ej.isEmit = true → ek.isFlushCall = true → j < k)) ∧
    (r.flush).2.instruments = [] := by
  have htr : (r.flush).1 = ((List.range r.nreporters).map .Prep
      ++ r.instruments.flatMap (emitFor r.nreporters r.pfx r.tags))
      ++ (List.range r.nreporters).map .Flush := by
    rfl
  have hPinj : Function.Injective (FlushEvent.Prep) := by
    intro a b hab
    injection hab
  have hFinj : Function.Injective (FlushEvent.Flush) := by
    intro a b hab
    injection hab
  have hEmits := emits_are_emits r.nreporters r.pfx r.tags r.instruments hk
  refine ⟨?_, ?_, rfl⟩
  · intro i hi
    refine ⟨?_, ?_, ?_⟩
    · rw [htr, List.count_append, List.count_append]
      rw [count_map_range_eq_one hi FlushEvent.Prep hPinj]
      rw [List.count_eq_zero.mpr (fun hmem => by
        have := hEmits _ hmem
        exact Bool.noConfusion this)]
      rw [List.count_eq_zero.mpr (fun hmem => by
        rcases List.mem_map.mp hmem with ⟨j, _, hj⟩
        exact FlushEvent.noConfusion hj)]
    · rw [htr, List.count_append, List.count_append]
      rw [count_map_range_eq_one hi FlushEvent.Flush hFinj]
      rw [List.count_eq_zero.mpr (fun hmem => by
        rcases List.mem_map.mp hmem with ⟨j, _, hj⟩
        exact FlushEvent.noConfusion hj)]
      rw [List.count_eq_zero.mpr (fun hmem => by
        have := hEmits _ hmem
        exact Bool.noConfusion this)]
    · have hfP : ((List.range r.nreporters).map FlushEvent.Prep).filter
          (FlushEvent.isEmitTo i) = [] := by
        rw [List.filter_eq_nil_iff]
        intro e he
        rcases List.mem_map.mp he with ⟨j, _, hj⟩
        rw [← hj]
        simp [FlushEvent.isEmitTo]
      have hfF : ((List.range r.nreporters).map FlushEvent.Flush).filter
          (FlushEvent.isEmitTo i) = [] := by
        rw [List.filter_eq_nil_iff]
        intro e he
        rcases List.mem_map.mp he with ⟨j, _, hj⟩
        rw [← hj]
        simp [FlushEvent.isEmitTo]
      rw [htr, List.filter_append, List.filter_append, hfP, hfF,
        filter_isEmitTo_emits hi r.pfx r.tags r.instruments hk]
      simp
  · intro j k ej ek hje hke
    rw [htr] at hje hke
    refine phase_order _ _ _ ?_ ?_ ?_ j k ej ek hje hke
    · intro e he
      rcases List.mem_map.mp he with ⟨a, _, ha⟩
      rw [← ha]
      rfl
    · exact hEmits
    · intro e he
      rcases List.mem_map.mp he with ⟨a, _, ha⟩
      rw [← ha]
      rfl

/-- A concrete registry: two reporters, a discrete and a sample
instrument, prefix `"myapp."`, one global tag. -/
def rW : Registry :=
  ⟨[("foo".toList, .discrete), (("bar|d".toList), .sample)], 2,
    "myapp.".toList, ["g".toList]⟩

/-- Witness for `flush_cycle_contract` on `rW`, reporter 1. -/
theorem flush_cycle_contract_witness :
    (rW.flush).1.count (.Prep 1) = 1 ∧
    (rW.flush).1.count (.Flush 1) = 1 ∧
    (rW.flush).1.filter (FlushEvent.isEmitTo 1)
      = rW.instruments.map (emitEvt 1 rW.pfx rW.tags) ∧
    (rW.flush).2.instruments = [] := by
  have h := flush_cycle_contract rW (by decide)
  exact ⟨(h.1 1 (by decide)).1, (h.1 1 (by decide)).2.1,
    (h.1 1 (by decide)).2.2, h.2.2⟩

/-- A registry holding a metric whose name begins with the reserved
`'|'`. -/
def rPipe : Registry :=
  ⟨[("|custom.foo".toList, .discrete)], 1, "myapp.".toList, []⟩

/-- Claim C6, counterexample: the flush cycle emits the `"|custom.foo"`
metric as `"myapp.|custom.foo"` — the leading `'|'` is not stripped
and the prefix is applied anyway; the claimed event with name
`"custom.foo"` never occurs. -/
theorem flush_reserved_cex :
    (rPipe.flush).1 = [.Prep 0,
      .Discrete 0 ("myapp.|custom.foo".toList) [],
      .Flush 0] ∧
    FlushEvent.Discrete 0 ("custom.foo".toList) [] ∉ (rPipe.flush).1 := by
  decide

/-- Claim C6, amended: during a flush cycle every drained metric —
including those whose name begins with `'|'`, which receives no
special treatment — is emitted with the registry prefix prepended to
the split name, and with the metric's own tags appended after the
global tag list. -/
theorem flush_transform (r : Registry) (en : Str × InstrumentKind) (i : ℕ)
    (hen : en ∈ r.instruments) (hi : i < r.nreporters) :
    (en.2 = .discrete →
      FlushEvent.Discrete i (r.pfx ++ (SplitMetricID en.1).1)
        (r.tags ++ (SplitMetricID en.1).2) ∈ (r.flush).1) ∧
    (en.2 = .sample →
      FlushEvent.Sample i (r.pfx ++ (SplitMetricID en.1).1)
        (r.tags ++ (SplitMetricID en.1).2) ∈ (r.flush).1) := by
  have hmemE : ∀ ev, ev ∈ emitFor r.nreporters r.pfx r.tags en → ev ∈ (r.flush).1 := by
    intro ev hev
    show ev ∈ ((List.range r.nreporters).map .Prep
        ++ r.instruments.flatMap (emitFor r.nreporters r.pfx r.tags))
        ++ (List.range r.nreporters).map .Flush
    refine List.mem_append_left _ (List.mem_append_right _ ?_)
    exact List.mem_flatMap.mpr ⟨en, hen, hev⟩
  constructor
  · intro hkind
    refine hmemE _ ?_
    unfold emitFor
    refine List.mem_flatMap.mpr ⟨i, List.mem_range.mpr hi, ?_⟩
    rw [hkind]
    exact List.mem_singleton_self _
  · intro hkind
    refine hmemE _ ?_
    unfold emitFor
    refine List.mem_flatMap.mpr ⟨i, List.mem_range.mpr hi, ?_⟩
    rw [hkind]
    exact List.mem_singleton_self _

/-- Witness for `flush_transform` on `rPipe`: the reserved-looking
name is emitted prefixed, unstripped. -/
theorem flush_transform_witness :
    FlushEvent.Discrete 0 (rPipe.pfx ++ (SplitMetricID ("|custom.foo".toList)).1)
      (rPipe.tags ++ (SplitMetricID ("|custom.foo".toList)).2) ∈ (rPipe.flush).1 :=
  (flush_transform rPipe ("|custom.foo".toList, .discrete) 0
    (by decide) (by decide)).1 rfl

/-! ## Claim C1: quantile endpoint, bounds and monotonicity -/

/-- The half-weight credited as `w0` when the scan stops at `pos`:
the caller's initial `w0` at position 0, else half the absolute
weight of the previous bin. -/
def prevHalf (bins : List histogramBin) : ℕ → ℚ → ℚ
  | 0, w0 => w0
  | p + 1, _ =>
    match bins[p]? with
    | some b => |b.w| / 2
    | none => 0

theorem quantileScan_cons (b : histogramBin) (rest : List histogramBin)
    (delta w0 : ℚ) :
    quantileScan (b :: rest) delta w0 =
      if delta - |b.w| / 2 - w0 < 0 then (0, delta)
      else ((quantileScan rest (delta - (|b.w| / 2 + w0)) (|b.w| / 2)).1 + 1,
        (quantileScan rest (delta - (|b.w| / 2 + w0)) (|b.w| / 2)).2) := rfl

theorem prevHalf_cons (bHead : histogramBin) (rest : List histogramBin)
    (n : ℕ) (w0 : ℚ) :
    prevHalf (bHead :: rest) (n + 1) w0 = prevHalf rest n (|bHead.w| / 2) := by
  cases n with
  | zero =>
    show (match (bHead :: rest)[0]? with
      | some b => |b.w| / 2
      | none => 0) = |bHead.w| / 2
    rw [List.getElem?_cons_zero]
  | succ p =>
    show (match (bHead :: rest)[p + 1]? with
      | some b => |b.w| / 2
      | none => 0)
      = (match rest[p]? with
      | some b => |b.w| / 2
      | none => 0)
    rw [List.getElem?_cons_succ]

theorem scan_fst_le : ∀ (bins : List histogramBin) (delta w0 : ℚ),
    (quantileScan bins delta w0).1 ≤ bins.length
  | [], _, _ => Nat.le_refl 0
  | b :: rest, delta, w0 => by
    rw [quantileScan_cons]
    split
    · exact Nat.zero_le _
    · exact Nat.succ_le_succ (scan_fst_le rest _ _)

theorem scan_snd_nonneg : ∀ (bins : List histogramBin) (delta w0 : ℚ),
    0 ≤ delta → 0 ≤ (quantileScan bins delta w0).2
  | [], delta, _, h0 => h0
  | b :: rest, delta, w0, h0 => by
    rw [quantileScan_cons]
    split
    next => exact h0
    next hcont =>
      push_neg at hcont
      exact scan_snd_nonneg rest _ _ (by linarith)

/-- When the scan stops strictly inside the bin list, the residual is
less than half the stopping bin's weight plus the incoming half
weight. -/
theorem scan_break : ∀ (bins : List histogramBin) (delta w0 : ℚ),
    ∀ b, bins[(quantileScan bins delta w0).1]? = some b →
    (quantileScan bins delta w0).2
      < |b.w| / 2 + prevHalf bins (quantileScan bins delta w0).1 w0
  | [], delta, w0, b, hb => by
    exact absurd hb (by simp [quantileScan])
  | bHead :: rest, delta, w0, b, hb => by
    by_cases hstop : delta - |bHead.w| / 2 - w0 < 0
    · rw [quantileScan_cons, if_pos hstop] at hb ⊢
      rw [show ((0 : ℕ), delta).1 = 0 from rfl, List.getElem?_cons_zero] at hb
      have hbe : bHead = b := Option.some_injective _ hb
      subst hbe
      show delta < |bHead.w| / 2 + prevHalf (bHead :: rest) 0 w0
      unfold prevHalf
      linarith
    · rw [quantileScan_cons, if_neg hstop] at hb ⊢
      dsimp only at hb ⊢
      rw [List.getElem?_cons_succ] at hb
      have ih := scan_break rest (delta - (|bHead.w| / 2 + w0)) (|bHead.w| / 2) b hb
      rw [prevHalf_cons]
      exact ih

/-- When the scan consumes every bin, the residual is less than half
the last bin's weight, provided the original target was below the
credited total. -/
theorem scan_end : ∀ (bins : List histogramBin) (delta w0 : ℚ),
    delta < w0 + wsum bins →
    (quantileScan bins delta w0).1 = bins.length →
    ∀ b, bins[bins.length - 1]? = some b →
    (quantileScan bins delta w0).2 < |b.w| / 2
  | [], delta, w0, hlt, hall, b, hb => by
    exact absurd hb (by simp)
  | bHead :: rest, delta, w0, hlt, hall, b, hb => by
    rw [wsum_cons] at hlt
    by_cases hstop : delta - |bHead.w| / 2 - w0 < 0
    · rw [quantileScan_cons, if_pos hstop] at hall
      exact absurd hall (by simp)
    · push_neg at hstop
      rw [quantileScan_cons, if_neg (not_lt.mpr hstop)] at hall ⊢
      dsimp only at hall ⊢
      have hlt' : delta - (|bHead.w| / 2 + w0) < |bHead.w| / 2 + wsum rest := by
        linarith
      rcases rest with _ | ⟨b2, rest'⟩
      · rw [show ([bHead].length - 1) = 0 from rfl, List.getElem?_cons_zero] at hb
        have hbe : bHead = b := Option.some_injective _ hb
        subst hbe
        show (quantileScan [] (delta - (|bHead.w| / 2 + w0)) (|bHead.w| / 2)).2
          < |bHead.w| / 2
        show delta - (|bHead.w| / 2 + w0) < |bHead.w| / 2
        rw [show wsum ([] : List histogramBin) = 0 from rfl] at hlt'
        linarith
      · have hall' : (quantileScan (b2 :: rest')
            (delta - (|bHead.w| / 2 + w0)) (|bHead.w| / 2)).1
            = (b2 :: rest').length := by
          simp only [List.length_cons] at hall ⊢
          omega
        have hb' : (b2 :: rest')[(b2 :: rest').length - 1]? = some b := by
          rw [show (bHead :: b2 :: rest').length - 1 = ((b2 :: rest').length - 1) + 1
            from by simp] at hb
          rw [List.getElem?_cons_succ] at hb
          exact hb
        exact scan_end (b2 :: rest') _ _ hlt' hall' b hb'

/-- The scan is monotone in the target: a larger target stops at a
later position, or at the same position with a larger residual. -/
theorem scan_mono : ∀ (bins : List histogramBin) (d1 d2 w0 : ℚ), d1 ≤ d2 →
    (quantileScan bins d1 w0).1 < (quantileScan bins d2 w0).1 ∨
    ((quantileScan bins d1 w0).1 = (quantileScan bins d2 w0).1 ∧
      (quantileScan bins d1 w0).2 ≤ (quantileScan bins d2 w0).2)
  | [], d1, d2, w0, hd => Or.inr ⟨rfl, hd⟩
  | b :: rest, d1, d2, w0, hd => by
    unfold quantileScan
    by_cases h1 : d1 - |b.w| / 2 - w0 < 0
    · rw [if_pos h1]
      by_cases h2 : d2 - |b.w| / 2 - w0 < 0
      · rw [if_pos h2]
        exact Or.inr ⟨rfl, hd⟩
      · rw [if_neg h2]
        exact Or.inl (Nat.succ_pos _)
    · rw [if_neg h1]
      have h2 : ¬(d2 - |b.w| / 2 - w0 < 0) := by
        push_neg at h1 ⊢
        linarith
      rw [if_neg h2]
      rcases scan_mono rest (d1 - (|b.w| / 2 + w0)) (d2 - (|b.w| / 2 + w0)) (|b.w| / 2)
          (by linarith) with hlt | ⟨heq, hle⟩
      · exact Or.inl (Nat.succ_lt_succ hlt)
      · exact Or.inr ⟨by rw [heq], hle⟩

/-- Bounds for the square-root interpolation multiplier on distinct
normalised weights. -/
theorem sqrtz_bounds (w1 w2 dR : ℝ) (hw1 : 0 ≤ w1) (hw2 : 0 ≤ w2) (hne : w1 ≠ w2)
    (hd0 : 0 ≤ dR) (hdlt : dR < (w1 + w2) / 2) :
    0 ≤ (Real.sqrt ((2 * w1) * (2 * w1) + 4 * (2 * (w2 - w1)) * dR) - 2 * w1)
        / (2 * (w2 - w1)) ∧
    (Real.sqrt ((2 * w1) * (2 * w1) + 4 * (2 * (w2 - w1)) * dR) - 2 * w1)
        / (2 * (w2 - w1)) ≤ 1 := by
  rcases lt_or_gt_of_ne hne with hlt | hgt
  · have ha : (0 : ℝ) < 2 * (w2 - w1) := by linarith
    have harg0 : (2 * w1) * (2 * w1)
        ≤ (2 * w1) * (2 * w1) + 4 * (2 * (w2 - w1)) * dR := by nlinarith
    have hsq_lb : 2 * w1
        ≤ Real.sqrt ((2 * w1) * (2 * w1) + 4 * (2 * (w2 - w1)) * dR) := by
      calc 2 * w1 = Real.sqrt ((2 * w1) * (2 * w1)) :=
            (Real.sqrt_mul_self (by linarith)).symm
        _ ≤ _ := Real.sqrt_le_sqrt harg0
    have hargub : (2 * w1) * (2 * w1) + 4 * (2 * (w2 - w1)) * dR
        ≤ (2 * w2) * (2 * w2) := by nlinarith
    have hsq_ub : Real.sqrt ((2 * w1) * (2 * w1) + 4 * (2 * (w2 - w1)) * dR)
        ≤ 2 * w2 := by
      calc Real.sqrt ((2 * w1) * (2 * w1) + 4 * (2 * (w2 - w1)) * dR)
          ≤ Real.sqrt ((2 * w2) * (2 * w2)) := Real.sqrt_le_sqrt hargub
        _ = 2 * w2 := Real.sqrt_mul_self (by linarith)
    constructor
    · exact div_nonneg (by linarith) (le_of_lt ha)
    · rw [div_le_one ha]
      linarith
  · have ha : 2 * (w2 - w1) < 0 := by linarith
    have hargub : (2 * w1) * (2 * w1) + 4 * (2 * (w2 - w1)) * dR
        ≤ (2 * w1) * (2 * w1) := by nlinarith
    have harg_lb : (2 * w2) * (2 * w2)
        ≤ (2 * w1) * (2 * w1) + 4 * (2 * (w2 - w1)) * dR := by nlinarith
    have hsq_ub : Real.sqrt ((2 * w1) * (2 * w1) + 4 * (2 * (w2 - w1)) * dR)
        ≤ 2 * w1 := by
      calc Real.sqrt ((2 * w1) * (2 * w1) + 4 * (2 * (w2 - w1)) * dR)
          ≤ Real.sqrt ((2 * w1) * (2 * w1)) := Real.sqrt_le_sqrt hargub
        _ = 2 * w1 := Real.sqrt_mul_self (by linarith)
    have hsq_lb : 2 * w2
        ≤ Real.sqrt ((2 * w1) * (2 * w1) + 4 * (2 * (w2 - w1)) * dR) := by
      calc 2 * w2 = Real.sqrt ((2 * w2) * (2 * w2)) :=
            (Real.sqrt_mul_self (by linarith)).symm
        _ ≤ _ := Real.sqrt_le_sqrt harg_lb
    constructor
    · exact div_nonneg_of_nonpos (by linarith) (le_of_lt ha)
    · rw [div_le_one_of_neg ha]
      linarith

/-- The interpolation multiplier lies in `[0, 1]` on the residual
range the scan can produce. -/
theorem interpZ_bounds (w1 w2 : ℝ) (d : ℚ) (hw1 : 0 ≤ w1) (hw2 : 0 ≤ w2)
    (hpos : 0 < w1 + w2) (hd0 : 0 ≤ (d : ℝ)) (hdlt : (d : ℝ) < (w1 + w2) / 2) :
    0 ≤ interpZ w1 w2 d ∧ interpZ w1 w2 d ≤ 1 := by
  unfold interpZ
  split
  next heq =>
    have hw1pos : 0 < w1 := by
      rw [← heq] at hpos
      linarith
    constructor
    · exact div_nonneg hd0 (le_of_lt hw1pos)
    · rw [div_le_one hw1pos]
      rw [← heq] at hdlt
      linarith
  next hne =>
    exact sqrtz_bounds w1 w2 (d : ℝ) hw1 hw2 hne hd0 hdlt

/-- The interpolation multiplier is monotone in the residual. -/
theorem interpZ_mono (w1 w2 : ℝ) (d d' : ℚ) (hw1 : 0 ≤ w1) (hw2 : 0 ≤ w2)
    (hpos : 0 < w1 + w2) (hdd : (d : ℝ) ≤ (d' : ℝ)) :
    interpZ w1 w2 d ≤ interpZ w1 w2 d' := by
  unfold interpZ
  split
  next heq =>
    have hw1pos : 0 < w1 := by
      rw [← heq] at hpos
      linarith
    rw [div_le_div_iff_of_pos_right hw1pos]
    exact hdd
  next hne =>
    rcases lt_or_gt_of_ne hne with hlt | hgt
    · have ha : (0 : ℝ) < 2 * (w2 - w1) := by linarith
      have hargle : (2 * w1) * (2 * w1) + 4 * (2 * (w2 - w1)) * (d : ℝ)
          ≤ (2 * w1) * (2 * w1) + 4 * (2 * (w2 - w1)) * (d' : ℝ) := by nlinarith
      have hs := Real.sqrt_le_sqrt hargle
      rw [div_le_div_iff_of_pos_right ha]
      linarith
    · have ha : 2 * (w2 - w1) < 0 := by linarith
      have hargle : (2 * w1) * (2 * w1) + 4 * (2 * (w2 - w1)) * (d' : ℝ)
          ≤ (2 * w1) * (2 * w1) + 4 * (2 * (w2 - w1)) * (d : ℝ) := by nlinarith
      have hs := Real.sqrt_le_sqrt hargle
      exact div_le_div_of_nonpos_of_le (le_of_lt ha) (by linarith)

/-- Positivity of the normalised weight sum of two bins that are not
both weightless. -/
theorem abs_cast_sum_pos (b1 b2 : histogramBin) (hw : ¬(b1.w = 0 ∧ b2.w = 0)) :
    (0 : ℝ) < |(b1.w : ℝ)| + |(b2.w : ℝ)| := by
  rcases not_and_or.mp hw with h | h
  · have : (0 : ℝ) < |(b1.w : ℝ)| := abs_pos.mpr (by exact_mod_cast h)
    have := abs_nonneg ((b2.w : ℝ))
    linarith
  · have : (0 : ℝ) < |(b2.w : ℝ)| := abs_pos.mpr (by exact_mod_cast h)
    have := abs_nonneg ((b1.w : ℝ))
    linarith

/-- Casting the residual range bound to the reals. -/
theorem cast_range_bound {b1 b2 : histogramBin} {d : ℚ}
    (hdlt : d < (|b1.w| + |b2.w|) / 2) :
    (d : ℝ) < (|(b1.w : ℝ)| + |(b2.w : ℝ)|) / 2 := by
  have : ((d : ℚ) : ℝ) < (((|b1.w| + |b2.w|) / 2 : ℚ) : ℝ) := by exact_mod_cast hdlt
  push_cast at this
  exact this

/-- `resolve` stays between the two bin values on the residual range
the scan can produce. -/
theorem resolve_bounds (b1 b2 : histogramBin) (d : ℚ)
    (hv : b1.v ≤ b2.v) (hd0 : 0 ≤ d) (hdlt : d < (|b1.w| + |b2.w|) / 2)
    (hw : ¬(b1.w = 0 ∧ b2.w = 0)) :
    (b1.v : ℝ) ≤ resolve b1 b2 d ∧ resolve b1 b2 d ≤ (b2.v : ℝ) := by
  unfold resolve
  split
  next => exact ⟨by exact_mod_cast hv, le_refl _⟩
  next =>
    have hz := interpZ_bounds |(b1.w : ℝ)| |(b2.w : ℝ)| d (abs_nonneg _) (abs_nonneg _)
      (abs_cast_sum_pos b1 b2 hw) (by exact_mod_cast hd0) (cast_range_bound hdlt)
    have hvR : (b1.v : ℝ) ≤ (b2.v : ℝ) := by exact_mod_cast hv
    constructor
    · nlinarith [hz.1, hz.2]
    · nlinarith [hz.1, hz.2]

/-- `resolve` is monotone in the residual on the range the scan can
produce. -/
theorem resolve_mono (b1 b2 : histogramBin) (d d' : ℚ)
    (hv : b1.v ≤ b2.v) (hdd : d ≤ d')
    (hw : ¬(b1.w = 0 ∧ b2.w = 0)) :
    resolve b1 b2 d ≤ resolve b1 b2 d' := by
  unfold resolve
  split
  next => exact le_refl _
  next =>
    have hz := interpZ_mono |(b1.w : ℝ)| |(b2.w : ℝ)| d d' (abs_nonneg _) (abs_nonneg _)
      (abs_cast_sum_pos b1 b2 hw) (by exact_mod_cast hdd)
    have hvR : (b1.v : ℝ) ≤ (b2.v : ℝ) := by exact_mod_cast hv
    nlinarith [hz]

/-- The left neighbour of the stop position: the synthetic `(min, 0)`
bin at the lower bound, else the previous bin. -/
def leftBin (h : Histogram) (pos : ℕ) : Option histogramBin :=
  if pos = 0 then some ⟨0, h.min⟩ else h.bins[pos - 1]?

/-- The right neighbour of the stop position: the synthetic `(max, 0)`
bin at the upper bound, else the bin at the position. -/
def rightBin (h : Histogram) (pos : ℕ) : Option histogramBin :=
  if pos = h.bins.length then some ⟨0, h.max⟩ else h.bins[pos]?

/-- The interior-quantile frame: on a well-formed histogram with at
least one observation and `0 < q < 1`, `Quantile` resolves between the
two neighbours of the scan's stop position, whose values bracket the
result within `[min, max]`, with the residual inside the interpolation
range. -/
theorem quantile_frame (h : Histogram) (hwf : h.WF) (hcnt : 1 ≤ h.cnt)
    (q : ℚ) (h0 : 0 < q) (h1 : q < 1) :
    ∃ L R,
      leftBin h (quantileScan h.bins (q * (h.cnt : ℚ)) 0).1 = some L ∧
      rightBin h (quantileScan h.bins (q * (h.cnt : ℚ)) 0).1 = some R ∧
      h.Quantile q = some (resolve L R (quantileScan h.bins (q * (h.cnt : ℚ)) 0).2) ∧
      L.v ≤ R.v ∧ h.min ≤ L.v ∧ R.v ≤ h.max ∧
      ¬(L.w = 0 ∧ R.w = 0) ∧
      0 ≤ (quantileScan h.bins (q * (h.cnt : ℚ)) 0).2 ∧
      (quantileScan h.bins (q * (h.cnt : ℚ)) 0).2 < (|L.w| + |R.w|) / 2 := by
  obtain ⟨hpair, hmem, hsum, _⟩ := hwf
  have hsumw : wsum h.bins = (h.cnt : ℚ) := hsum
  have hcpos : (0 : ℚ) < (h.cnt : ℚ) := by
    exact_mod_cast Nat.lt_of_lt_of_le Nat.zero_lt_one hcnt
  have hwpos : 0 < wsum h.bins := by rw [hsumw]; exact hcpos
  have hne := bins_ne_nil_of_wsum_pos h.bins hwpos
  have hlen1 : 0 < h.bins.length := List.length_pos.mpr hne
  have hcne : h.cnt ≠ 0 := by omega
  have hcond1 : ¬(h.cnt = 0 ∨ q < 0 ∨ 1 < q) := by
    push_neg
    exact ⟨hcne, le_of_lt h0, le_of_lt h1⟩
  have hq0 : q ≠ 0 := ne_of_gt h0
  have hq1 : q ≠ 1 := ne_of_lt h1
  have hd0 : 0 ≤ q * (h.cnt : ℚ) := by positivity
  have hdlt : q * (h.cnt : ℚ) < 0 + wsum h.bins := by
    rw [hsumw, zero_add]
    nlinarith
  have hscanle := scan_fst_le h.bins (q * (h.cnt : ℚ)) 0
  have hsnd0 := scan_snd_nonneg h.bins (q * (h.cnt : ℚ)) 0 hd0
  rcases Nat.eq_zero_or_pos (quantileScan h.bins (q * (h.cnt : ℚ)) 0).1 with hpos0 | hposgt
  · obtain ⟨b0, hb0⟩ : ∃ b, h.bins[0]? = some b := by
      rcases hbb : h.bins with _ | ⟨b, rest⟩
      · exact absurd hbb hne
      · exact ⟨b, List.getElem?_cons_zero⟩
    have hb0mem : b0 ∈ h.bins := List.getElem?_mem hb0
    refine ⟨⟨0, h.min⟩, b0, ?_, ?_, ?_, ?_, le_refl _, ?_, ?_, hsnd0, ?_⟩
    · unfold leftBin
      rw [if_pos hpos0]
    · unfold rightBin
      rw [if_neg (by omega), hpos0]
      exact hb0
    · unfold Histogram.Quantile
      rw [if_neg hcond1, if_neg hq0, if_neg hq1, if_pos hpos0, hb0]
      rfl
    · exact (hmem b0 hb0mem).2.1
    · exact (hmem b0 hb0mem).2.2
    · rintro ⟨_, hw2⟩
      exact (hmem b0 hb0mem).1 hw2
    · have hb0' : h.bins[(quantileScan h.bins (q * (h.cnt : ℚ)) 0).1]? = some b0 := by
        rw [hpos0]; exact hb0
      have hbr := scan_break h.bins (q * (h.cnt : ℚ)) 0 b0 hb0'
      rw [hpos0] at hbr
      have hph : prevHalf h.bins 0 0 = 0 := rfl
      rw [hph] at hbr
      have habs : |(⟨0, h.min⟩ : histogramBin).w| = 0 := by
        show |(0 : ℚ)| = 0
        simp
      rw [habs]
      linarith
  · rcases eq_or_lt_of_le hscanle with heqlen | hltlen
    · obtain ⟨bl, hbl⟩ : ∃ b, h.bins[h.bins.length - 1]? = some b := by
        have hl : h.bins.length - 1 < h.bins.length := by omega
        exact ⟨h.bins[h.bins.length - 1], List.getElem?_eq_getElem hl⟩
      have hblmem : bl ∈ h.bins := List.getElem?_mem hbl
      refine ⟨bl, ⟨0, h.max⟩, ?_, ?_, ?_, ?_, ?_, le_refl _, ?_, hsnd0, ?_⟩
      · unfold leftBin
        rw [if_neg (by omega), heqlen]
        exact hbl
      · unfold rightBin
        rw [if_pos heqlen]
      · unfold Histogram.Quantile
        rw [if_neg hcond1, if_neg hq0, if_neg hq1, if_neg (by omega), if_pos heqlen]
        rw [show (quantileScan h.bins (q * (h.cnt : ℚ)) 0).1 - 1 = h.bins.length - 1
          from by omega]
        rw [hbl]
        rfl
      · exact (hmem bl hblmem).2.2
      · exact (hmem bl hblmem).2.1
      · rintro ⟨hw1, _⟩
        exact (hmem bl hblmem).1 hw1
      · have hend := scan_end h.bins (q * (h.cnt : ℚ)) 0 hdlt heqlen bl hbl
        have habs : |(⟨0, h.max⟩ : histogramBin).w| = 0 := by
          show |(0 : ℚ)| = 0
          simp
        rw [habs]
        linarith
    · obtain ⟨p, hp⟩ : ∃ p, (quantileScan h.bins (q * (h.cnt : ℚ)) 0).1 = p + 1 :=
        ⟨(quantileScan h.bins (q * (h.cnt : ℚ)) 0).1 - 1, by omega⟩
      have hplen : p + 1 < h.bins.length := hp ▸ hltlen
      have hplen' : p < h.bins.length := Nat.lt_of_succ_lt hplen
      obtain ⟨bl, hbl⟩ : ∃ b, h.bins[p]? = some b :=
        ⟨h.bins[p], List.getElem?_eq_getElem hplen'⟩
      obtain ⟨br, hbr⟩ : ∃ b, h.bins[p + 1]? = some b :=
        ⟨h.bins[p + 1], List.getElem?_eq_getElem hplen⟩
      have hblmem : bl ∈ h.bins := List.getElem?_mem hbl
      have hbrmem : br ∈ h.bins := List.getElem?_mem hbr
      have hvlr : bl.v < br.v := by
        have hget1 : h.bins[p] = bl := by
          rw [List.getElem?_eq_getElem hplen'] at hbl
          exact Option.some_injective _ hbl
        have hget2 : h.bins[p + 1] = br := by
          rw [List.getElem?_eq_getElem hplen] at hbr
          exact Option.some_injective _ hbr
        have := List.pairwise_iff_getElem.mp hpair p (p + 1) hplen' hplen
          (Nat.lt_succ_self p)
        rw [hget1, hget2] at this
        exact this
      refine ⟨bl, br, ?_, ?_, ?_, le_of_lt hvlr, ?_, ?_, ?_, hsnd0, ?_⟩
      · unfold leftBin
        rw [hp, if_neg (Nat.succ_ne_zero p), Nat.add_sub_cancel]
        exact hbl
      · unfold rightBin
        rw [hp, if_neg (by omega)]
        exact hbr
      · unfold Histogram.Quantile
        rw [if_neg hcond1, if_neg hq0, if_neg hq1, hp, if_neg (Nat.succ_ne_zero p),
          if_neg (by omega), Nat.add_sub_cancel, hbl, hbr]
      · exact (hmem bl hblmem).2.1
      · exact (hmem br hbrmem).2.2
      · rintro ⟨hw1, _⟩
        exact (hmem bl hblmem).1 hw1
      · have hbr' : h.bins[(quantileScan h.bins (q * (h.cnt : ℚ)) 0).1]? = some br := by
          rw [hp]
          exact hbr
        have hbrk := scan_break h.bins (q * (h.cnt : ℚ)) 0 br hbr'
        rw [hp] at hbrk
        have hph : prevHalf h.bins (p + 1) 0 = |bl.w| / 2 := by
          show (match h.bins[p]? with
            | some b => |b.w| / 2
            | none => 0) = |bl.w| / 2
          rw [hbl]
        rw [hph] at hbrk
        linarith

theorem getElem?_pairwise_lt (bins : List histogramBin)
    (hpair : bins.Pairwise (fun a b => a.v < b.v)) {i j : ℕ} {bi bj : histogramBin}
    (hij : i < j) (hi : bins[i]? = some bi) (hj : bins[j]? = some bj) :
    bi.v < bj.v := by
  have hjl := getElem?_some_lt hj
  have hil : i < bins.length := lt_trans hij hjl
  have h1 : bins[i] = bi := by
    rw [List.getElem?_eq_getElem hil] at hi
    exact Option.some_injective _ hi
  have h2 : bins[j] = bj := by
    rw [List.getElem?_eq_getElem hjl] at hj
    exact Option.some_injective _ hj
  have := List.pairwise_iff_getElem.mp hpair i j hil hjl hij
  rw [h1, h2] at this
  exact this

theorem quantile_zero (h : Histogram) (hcnt : 1 ≤ h.cnt) :
    h.Quantile 0 = some ((h.min : ℚ) : ℝ) := by
  unfold Histogram.Quantile
  rw [if_neg (by push_neg; refine ⟨by omega, le_refl 0, by norm_num⟩), if_pos rfl]

theorem quantile_one (h : Histogram) (hcnt : 1 ≤ h.cnt) :
    h.Quantile 1 = some ((h.max : ℚ) : ℝ) := by
  unfold Histogram.Quantile
  rw [if_neg (by push_neg; refine ⟨by omega, by norm_num, le_refl 1⟩),
    if_neg (by norm_num), if_pos rfl]

/-- Monotonicity of `Quantile` on the open interval. -/
theorem quantile_mono_interior (h : Histogram) (hwf : h.WF) (hcnt : 1 ≤ h.cnt)
    (q q' : ℚ) (h0 : 0 < q) (hqq : q ≤ q') (h1 : q' < 1)
    (r r' : ℝ) (hr : h.Quantile q = some r) (hr' : h.Quantile q' = some r') :
    r ≤ r' := by
  have h0' : 0 < q' := lt_of_lt_of_le h0 hqq
  have h1q : q < 1 := lt_of_le_of_lt hqq h1
  obtain ⟨L, R, hL, hR, hQ, hvLR, hminL, hRmax, hw, hd0, hdlt⟩ :=
    quantile_frame h hwf hcnt q h0 h1q
  obtain ⟨L', R', hL', hR', hQ', hvLR', hminL', hRmax', hw', hd0', hdlt'⟩ :=
    quantile_frame h hwf hcnt q' h0' h1
  have hre : r = resolve L R (quantileScan h.bins (q * (h.cnt : ℚ)) 0).2 := by
    rw [hr] at hQ
    exact Option.some_injective _ hQ
  have hre' : r' = resolve L' R' (quantileScan h.bins (q' * (h.cnt : ℚ)) 0).2 := by
    rw [hr'] at hQ'
    exact Option.some_injective _ hQ'
  have hdel : q * (h.cnt : ℚ) ≤ q' * (h.cnt : ℚ) :=
    mul_le_mul_of_nonneg_right hqq (by positivity)
  rcases scan_mono h.bins (q * (h.cnt : ℚ)) (q' * (h.cnt : ℚ)) 0 hdel with hlt | ⟨heq, hdle⟩
  · -- strictly later stop position: pass through the bin values between
    have hposlen : (quantileScan h.bins (q * (h.cnt : ℚ)) 0).1 < h.bins.length :=
      lt_of_lt_of_le hlt (scan_fst_le h.bins (q' * (h.cnt : ℚ)) 0)
    have hpos'0 : (quantileScan h.bins (q' * (h.cnt : ℚ)) 0).1 ≠ 0 := by omega
    unfold rightBin at hR
    rw [if_neg (ne_of_lt hposlen)] at hR
    unfold leftBin at hL'
    rw [if_neg hpos'0] at hL'
    have hRL' : R.v ≤ L'.v := by
      rcases eq_or_lt_of_le (show (quantileScan h.bins (q * (h.cnt : ℚ)) 0).1
          ≤ (quantileScan h.bins (q' * (h.cnt : ℚ)) 0).1 - 1 from by omega)
        with heqi | hlti
      · rw [heqi] at hR
        rw [hR] at hL'
        rw [Option.some_injective _ hL']
      · exact le_of_lt (getElem?_pairwise_lt h.bins hwf.1 hlti hR hL')
    have hb1 := (resolve_bounds L R _ hvLR hd0 hdlt hw).2
    have hb2 := (resolve_bounds L' R' _ hvLR' hd0' hdlt' hw').1
    rw [hre, hre']
    calc resolve L R (quantileScan h.bins (q * (h.cnt : ℚ)) 0).2
        ≤ (R.v : ℝ) := hb1
      _ ≤ (L'.v : ℝ) := by exact_mod_cast hRL'
      _ ≤ resolve L' R' (quantileScan h.bins (q' * (h.cnt : ℚ)) 0).2 := hb2
  · -- same stop position: interpolation is monotone in the residual
    rw [heq] at hL hR
    rw [hL] at hL'
    rw [hR] at hR'
    have hLL : L = L' := Option.some_injective _ hL'
    have hRR : R = R' := Option.some_injective _ hR'
    subst hLL
    subst hRR
    rw [hre, hre']
    exact resolve_mono L R _ _ hvLR hdle hw

/-- Claim C1: on every well-formed histogram with at least one
observation, `Quantile 0` is the minimum, `Quantile 1` is the maximum,
every `Quantile q` for `q ∈ [0, 1]` exists (no panic) and lies in
`[min, max]`, and `Quantile` is weakly monotone in `q`. -/
theorem quantile_spec (h : Histogram) (hwf : h.WF) (hcnt : 1 ≤ h.cnt) :
    h.Quantile 0 = some ((h.min : ℚ) : ℝ) ∧
    h.Quantile 1 = some ((h.max : ℚ) : ℝ) ∧
    (∀ q : ℚ, 0 ≤ q → q ≤ 1 →
      ∃ r : ℝ, h.Quantile q = some r ∧ ((h.min : ℚ) : ℝ) ≤ r ∧ r ≤ ((h.max : ℚ) : ℝ)) ∧
    (∀ (q q' : ℚ) (r r' : ℝ), 0 ≤ q → q ≤ q' → q' ≤ 1 →
      h.Quantile q = some r → h.Quantile q' = some r' → r ≤ r') := by
  have hminmax : h.min ≤ h.max := by
    obtain ⟨hpair, hmem, hsum, _⟩ := hwf
    have hcpos : (0 : ℚ) < (h.cnt : ℚ) := by
      exact_mod_cast Nat.lt_of_lt_of_le Nat.zero_lt_one hcnt
    have hwpos : 0 < wsum h.bins := by
      rw [show wsum h.bins = (h.cnt : ℚ) from hsum]
      exact hcpos
    have hne := bins_ne_nil_of_wsum_pos h.bins hwpos
    rcases hbb : h.bins with _ | ⟨b, rest⟩
    · exact absurd hbb hne
    · have hbmem : b ∈ h.bins := by rw [hbb]; exact List.mem_cons_self _ _
      exact le_trans (hmem b hbmem).2.1 (hmem b hbmem).2.2
  have hbounds : ∀ q : ℚ, 0 ≤ q → q ≤ 1 →
      ∃ r : ℝ, h.Quantile q = some r ∧ ((h.min : ℚ) : ℝ) ≤ r ∧ r ≤ ((h.max : ℚ) : ℝ) := by
    intro q hq0 hq1
    rcases eq_or_lt_of_le hq0 with hz | hpos
    · refine ⟨((h.min : ℚ) : ℝ), by rw [← hz]; exact quantile_zero h hcnt, le_refl _, ?_⟩
      exact_mod_cast hminmax
    · rcases eq_or_lt_of_le hq1 with ho | hlt1
      · refine ⟨((h.max : ℚ) : ℝ), by rw [ho]; exact quantile_one h hcnt, ?_, le_refl _⟩
        exact_mod_cast hminmax
      · obtain ⟨L, R, _, _, hQ, hvLR, hminL, hRmax, hw, hd0, hdlt⟩ :=
          quantile_frame h hwf hcnt q hpos hlt1
        have hb := resolve_bounds L R _ hvLR hd0 hdlt hw
        refine ⟨_, hQ, ?_, ?_⟩
        · exact le_trans (by exact_mod_cast hminL) hb.1
        · exact le_trans hb.2 (by exact_mod_cast hRmax)
  refine ⟨quantile_zero h hcnt, quantile_one h hcnt, hbounds, ?_⟩
  intro q q' r r' hq0 hqq hq1 hr hr'
  rcases eq_or_lt_of_le hqq with heq | hqlt
  · subst heq
    rw [hr] at hr'
    rw [Option.some_injective _ hr']
  · by_cases hq'1 : q' = 1
    · subst hq'1
      have hr'max : r' = ((h.max : ℚ) : ℝ) := by
        rw [quantile_one h hcnt] at hr'
        exact (Option.some_injective _ hr').symm
      obtain ⟨r0, hr0, _, hr0max⟩ := hbounds q hq0 (le_of_lt hqlt)
      rw [hr] at hr0
      have hrr0 : r = r0 := Option.some_injective _ hr0
      rw [hr'max, hrr0]
      exact hr0max
    · by_cases hqz : q = 0
      · subst hqz
        have hrmin : r = ((h.min : ℚ) : ℝ) := by
          rw [quantile_zero h hcnt] at hr
          exact (Option.some_injective _ hr).symm
        obtain ⟨r0, hr0, hr0min, _⟩ := hbounds q' (by linarith) hq1
        rw [hr'] at hr0
        have hrr0 : r' = r0 := Option.some_injective _ hr0
        rw [hrmin, hrr0]
        exact hr0min
      · exact quantile_mono_interior h hwf hcnt q q'
          (lt_of_le_of_ne hq0 (Ne.symm hqz)) (le_of_lt hqlt)
          (lt_of_le_of_ne hq1 hq'1) r r' hr hr'

/-- Witness for `quantile_spec` on the reachable histogram
`mergedHist` (count 3, min 1, max 3). -/
theorem quantile_spec_witness :
    mergedHist.Quantile 0 = some ((mergedHist.min : ℚ) : ℝ) ∧
    mergedHist.Quantile 1 = some ((mergedHist.max : ℚ) : ℝ) ∧
    ∃ r : ℝ, mergedHist.Quantile (1/2) = some r ∧
      ((mergedHist.min : ℚ) : ℝ) ≤ r ∧ r ≤ ((mergedHist.max : ℚ) : ℝ) := by
  have hwf : mergedHist.WF := by
    refine ⟨?_, ?_, ?_, ?_⟩
    · norm_num [mergedHist, List.pairwise_cons]
    · intro b hb
      rcases List.mem_cons.mp hb with hb | hb
      · subst hb
        norm_num [mergedHist]
      · rcases List.mem_cons.mp hb with hb | hb
        · subst hb
          norm_num [mergedHist]
        · exact absurd hb (List.not_mem_nil b)
    · norm_num [mergedHist]
    · norm_num [mergedHist]
  have h := quantile_spec mergedHist hwf (by norm_num [mergedHist])
  exact ⟨h.1, h.2.1, h.2.2.1 (1/2) (by norm_num) (by norm_num)⟩

end Instruments
